import Mathlib

/-!
Verification development for the Ring_chat replicated group-chat server.

The definitions below are a shallow embedding of the distributed control
plane of one server node, translated from the Python sources:

  * src/ring_manager.py   — membership map, canonical ring order, neighbors
  * src/election.py       — Chang-Roberts election message handling
  * src/message_handler.py — replication engine and bounded history buffer
  * src/server.py         — server-to-server message dispatch, client join
  * src/protocol.py       — JSON wire codec (serialize / deserialize)

Python dicts keyed by server id are modelled as insertion-ordered lists of
records; the operations that guard on key membership keep the id lists
duplicate-free exactly as the source does.  Stateful methods become pure
functions from state to state; callback invocations (deliver to clients,
broadcast to servers, send to neighbor) are recorded in explicit output
fields of the state or of the result.
-/

namespace RingChat

/-- ServerInfo from src/ring_manager.py: one member record of the ring view.
Fields mirror the Python attributes set in the constructor. -/
structure ServerInfo where
  server_id : String
  ip : String
  port : Nat
  is_leader : Bool
  is_alive : Bool
deriving Repr, DecidableEq

/-- RingManager state from src/ring_manager.py.  ring_members is the
insertion-ordered membership map (Python dict server_id -> ServerInfo);
ring_order is the sorted id list rebuilt after every membership change;
the neighbor fields hold the id of the referenced member record (the
Python code stores the ServerInfo object registered under that id). -/
structure RingManager where
  own_server_id : String
  ring_members : List ServerInfo
  ring_order : List String
  left_neighbor : Option String
  right_neighbor : Option String
deriving Repr, DecidableEq

/-- Fresh RingManager as built by the constructor: empty membership, no
neighbors. -/
def initRing (own : String) : RingManager :=
  { own_server_id := own, ring_members := [], ring_order := [],
    left_neighbor := none, right_neighbor := none }

/-- Membership test on the id key set (Python: server_id in self.ring_members). -/
def containsId (ms : List ServerInfo) (sid : String) : Bool :=
  ms.any (fun r => r.server_id == sid)

/-- Id key list of the membership map. -/
def idsOf (ms : List ServerInfo) : List String :=
  ms.map (fun r => r.server_id)

/-- Lexicographic comparison of code-point sequences: Python string
comparison (a < b) used both by sorted() and by the election candidate
comparison. -/
def strLtB : List Char → List Char → Bool
  | [], [] => false
  | [], _ :: _ => true
  | _ :: _, [] => false
  | a :: as, b :: bs => if a < b then true else if b < a then false else strLtB as bs

/-- Python string comparison a < b on the underlying code points. -/
def pyStrLt (a b : String) : Bool := strLtB a.data b.data

/-- Python string comparison a <= b. -/
def pyLe (a b : String) : Prop := pyStrLt b a = false

instance : DecidableRel pyLe := fun a b => by unfold pyLe; infer_instance

/-- Sorted id list (Python: sorted(self.ring_members.keys()), ascending in
the code-point order; on the duplicate-free key set of a dict any correct
sort yields this unique ascending sequence). -/
def sortIds (ms : List ServerInfo) : List String :=
  (idsOf ms).insertionSort pyLe

/-- Neighbor computation of _rebuild_ring (src/ring_manager.py lines 98-127):
if the own id is absent both neighbors are cleared; with a single member
both are cleared; otherwise the entries at own_index ∓ 1 modulo length.
Python (own_index - 1) % n on ints equals (own_index + n - 1) % n on Nat. -/
def computeNeighbors (own : String) (order : List String) : Option String × Option String :=
  if own ∈ order then
    let n := order.length
    if n = 1 then (none, none)
    else
      let i := order.indexOf own
      (some (order.getD ((i + n - 1) % n) ""), some (order.getD ((i + 1) % n) ""))
  else (none, none)

/-- Tail of add_server and remove_server: recompute ring_order and both
neighbors from the current membership. -/
def rebuild (st : RingManager) : RingManager :=
  let order := sortIds st.ring_members
  let nb := computeNeighbors st.own_server_id order
  { st with ring_order := order, left_neighbor := nb.1, right_neighbor := nb.2 }

/-- add_server (src/ring_manager.py lines 58-79): early return when the id
is already a member, otherwise insert the new record (is_alive starts true,
is_leader from the argument) and rebuild the ring. -/
def addServer (st : RingManager) (sid ip : String) (port : Nat) (is_lead : Bool) : RingManager :=
  if containsId st.ring_members sid then st
  else
    let r : ServerInfo :=
      { server_id := sid, ip := ip, port := port, is_leader := is_lead, is_alive := true }
    rebuild { st with ring_members := st.ring_members ++ [r] }

/-- remove_server (src/ring_manager.py lines 81-96): early return when the
id is not a member, otherwise delete the entry and rebuild the ring. -/
def removeServer (st : RingManager) (sid : String) : RingManager :=
  if containsId st.ring_members sid then
    rebuild { st with ring_members := st.ring_members.filter (fun r => r.server_id ≠ sid) }
  else st

/-- set_leader (src/ring_manager.py lines 149-159): clear the leader flag
on every record, then set it on the target record when the id is a member. -/
def setLeader (st : RingManager) (sid : String) : RingManager :=
  let cleared := st.ring_members.map (fun r => { r with is_leader := false })
  let ms :=
    if containsId cleared sid then
      cleared.map (fun r => if r.server_id = sid then { r with is_leader := true } else r)
    else cleared
  { st with ring_members := ms }

/-- get_leader (src/ring_manager.py lines 161-167): first record whose
leader flag is set, none otherwise. -/
def getLeader (st : RingManager) : Option ServerInfo :=
  st.ring_members.find? (fun r => r.is_leader)

/-- Number of records currently flagged as leader. -/
def leaderCount (ms : List ServerInfo) : Nat :=
  (ms.filter (fun r => r.is_leader)).length

/-- One mutating RingManager operation, for stating properties of every
reachable ring view. -/
inductive RingOp where
  | add (sid ip : String) (port : Nat) (is_lead : Bool)
  | remove (sid : String)
  | setLead (sid : String)
deriving Repr, DecidableEq

/-- Interpretation of one operation. -/
def applyOp (st : RingManager) : RingOp → RingManager
  | .add sid ip port is_lead => addServer st sid ip port is_lead
  | .remove sid => removeServer st sid
  | .setLead sid => setLeader st sid

/-- Interpretation of an operation sequence, left to right. -/
def applyOps (st : RingManager) (ops : List RingOp) : RingManager :=
  ops.foldl applyOp st

/-- An operation that never plants a second leader flag directly: every
add carries is_leader = false (the default, and the only form every call
site in src/server.py uses). -/
def RingOp.addsNonLeader : RingOp → Prop
  | .add _ _ _ is_lead => is_lead = false
  | .remove _ => True
  | .setLead _ => True

instance : DecidablePred RingOp.addsNonLeader := by
  intro op
  cases op <;> simp [RingOp.addsNonLeader] <;> infer_instance

/-- Result of processing one inbound ELECTION message
(src/election.py handle_election_message, lines 87-143): either the message
is parked for a retry because the ring has no right neighbor yet, or the
election completes with a winner (which triggers _complete_election), or an
ELECTION message with the given fields is forwarded to the right neighbor. -/
inductive ElectionStep where
  | parked
  | complete (winner : String)
  | forward (candidate originator : String) (hop : Nat)
deriving Repr, DecidableEq

/-- handle_election_message (src/election.py lines 87-143) as a function of
the own server id, whether a right neighbor is currently defined, and the
candidate_id / originator_id / hop_count fields of the message.  The
election_in_progress bookkeeping and timer arming are side state not
reflected in the returned step; completion stands for _complete_election
(set winner as leader, announce, idle).  String comparison is the Python
lexicographic order on code points. -/
def handleElectionMessage (own : String) (rightDefined : Bool)
    (candidate originator : String) (hop : Nat) : ElectionStep :=
  if !rightDefined then .parked
  else if originator = own then .complete candidate
  else if pyStrLt own candidate then .forward candidate originator (hop + 1)
  else if pyStrLt candidate own then .forward own originator (hop + 1)
  else .forward candidate originator (hop + 1)

/-- handle_leader_announcement (src/election.py lines 145-172): accept the
announced leader via set_leader, then re-forward the announcement to the
right neighbor exactly when the announced id differs from the own id
(_forward_leader_announcement / _announce_leader additionally require a
right neighbor to exist).  The returned Bool records whether the
announcement was re-forwarded. -/
def handleLeaderAnnouncement (st : RingManager) (leaderId : String) : RingManager × Bool :=
  let st' := setLeader st leaderId
  (st', decide (leaderId ≠ st.own_server_id) && st'.right_neighbor.isSome)

/-- Chat message record as built by create_chat_message
(src/protocol.py lines 153-160) together with the metadata of
create_message. -/
structure ChatMsg where
  message_id : String
  timestamp : String
  username : String
  content : String
  client_id : Option String
deriving Repr, DecidableEq

/-- FORWARD_MESSAGE envelope as built by create_forward_message
(src/protocol.py lines 167-173). -/
structure FwdMsg where
  original_message : ChatMsg
  origin_server_id : String
deriving Repr, DecidableEq

/-- Observable state of the MessageHandler (src/message_handler.py):
the history buffer plus a record of every callback invocation made so
far (messages handed to local clients, FORWARD_MESSAGE envelopes broadcast
to the other servers, envelopes forwarded to the leader). -/
structure MHState where
  message_history : List ChatMsg
  sent_to_clients : List ChatMsg
  broadcast_to_servers : List FwdMsg
  forwarded_to_leader : List FwdMsg
deriving Repr, DecidableEq

/-- MessageHandler state at construction: empty history, no calls made. -/
def initMH : MHState :=
  { message_history := [], sent_to_clients := [], broadcast_to_servers := [],
    forwarded_to_leader := [] }

/-- Last n entries of a list (Python slice xs[-n:], the whole list when it
is shorter than n). -/
def lastN (n : Nat) (xs : List α) : List α :=
  xs.drop (xs.length - n)

/-- _add_to_history (src/message_handler.py lines 152-159): append, then
cut the buffer back to its last 1000 entries when it exceeds 1000. -/
def addToHistory (hist : List ChatMsg) (m : ChatMsg) : List ChatMsg :=
  let h := hist ++ [m]
  if h.length > 1000 then lastN 1000 h else h

/-- _distribute_message (src/message_handler.py lines 108-127), run by the
leader: store in the own history, send to the own clients, broadcast a
FORWARD_MESSAGE envelope to all other servers. -/
def distributeMessage (ownId : String) (st : MHState) (m : ChatMsg) : MHState :=
  { st with
    message_history := addToHistory st.message_history m
    sent_to_clients := st.sent_to_clients ++ [m]
    broadcast_to_servers := st.broadcast_to_servers ++
      [{ original_message := m, origin_server_id := ownId }] }

/-- handle_forwarded_message (src/message_handler.py lines 74-91): when the
node is the leader, distribute the embedded original message; otherwise
only a warning is logged and the state is left untouched. -/
def handleForwardedMessage (ownId : String) (isLeaderSelf : Bool) (st : MHState)
    (fw : FwdMsg) : MHState :=
  if isLeaderSelf then distributeMessage ownId st fw.original_message
  else st

/-- handle_distributed_message (src/message_handler.py lines 93-106): store
in the history and send to the local clients. -/
def handleDistributedMessage (st : MHState) (m : ChatMsg) : MHState :=
  { st with
    message_history := addToHistory st.message_history m
    sent_to_clients := st.sent_to_clients ++ [m] }

/-- Inbound server-to-server message for the dispatch of
_handle_server_message (src/server.py lines 387-416), one case per type
tag the dispatcher compares against. -/
inductive SrvMsg where
  | election (candidate originator : String) (hop : Nat)
  | leaderAnn (leaderId : String)
  | heartbeat (serverId : String) (is_lead : Bool)
  | forward (fw : FwdMsg)
  | chat (m : ChatMsg)
  | other (tag : String)
deriving Repr, DecidableEq

/-- Type tag carried in the type field of the wire record. -/
def SrvMsg.tag : SrvMsg → String
  | .election _ _ _ => "ELECTION"
  | .leaderAnn _ => "LEADER_ANNOUNCEMENT"
  | .heartbeat _ _ => "HEARTBEAT"
  | .forward _ => "FORWARD_MESSAGE"
  | .chat _ => "CHAT_MESSAGE"
  | .other t => t

/-- Dispatch chain of _handle_server_message (src/server.py lines 387-416)
restricted to its effect on the MessageHandler state.  The ELECTION,
LEADER_ANNOUNCEMENT and HEARTBEAT branches call other components and leave
the MessageHandler state untouched.  The source compares the type tag
twice against FORWARD_MESSAGE: the first comparison (line 406) always wins,
so the distribution branch (lines 410-413) is reachable only for a bare
CHAT_MESSAGE, for which message.get with default yields the message itself. -/
def handleServerMessage (ownId : String) (isLeaderSelf : Bool) (st : MHState)
    (msg : SrvMsg) : MHState :=
  if msg.tag = "ELECTION" then st
  else if msg.tag = "LEADER_ANNOUNCEMENT" then st
  else if msg.tag = "HEARTBEAT" then st
  else if msg.tag = "FORWARD_MESSAGE" then
    match msg with
    | .forward fw => handleForwardedMessage ownId isLeaderSelf st fw
    | _ => st
  else if msg.tag = "FORWARD_MESSAGE" ∨ msg.tag = "CHAT_MESSAGE" then
    match msg with
    | .forward fw => handleDistributedMessage st fw.original_message
    | .chat m => handleDistributedMessage st m
    | _ => st
  else st

/-- History part of _on_client_joined (src/server.py lines 536-556): only
when the history buffer is non-empty, a MESSAGE_HISTORY record with the
last 50 entries (Python history[-50:]) is sent to the joining client;
none stands for no record being sent. -/
def onClientJoinedHistory (history : List ChatMsg) : Option (List ChatMsg) :=
  if history.isEmpty then none
  else some (lastN 50 history)

/-- Well-formedness of a RingManager state: duplicate-free id keys (Python
dict keys), and ring_order / neighbors agreeing with the last rebuild of
the current membership. -/
structure RingWf (st : RingManager) : Prop where
  nodup : (idsOf st.ring_members).Nodup
  order_eq : st.ring_order = sortIds st.ring_members
  nbrs_eq : (st.left_neighbor, st.right_neighbor)
      = computeNeighbors st.own_server_id st.ring_order

theorem sortIds_perm (ms : List ServerInfo) : (sortIds ms).Perm (idsOf ms) :=
  List.perm_insertionSort pyLe (idsOf ms)

theorem mem_sortIds {ms : List ServerInfo} {x : String} :
    x ∈ sortIds ms ↔ x ∈ idsOf ms :=
  (sortIds_perm ms).mem_iff

theorem length_sortIds (ms : List ServerInfo) :
    (sortIds ms).length = ms.length := by
  rw [(sortIds_perm ms).length_eq]
  simp [idsOf]

theorem nodup_sortIds {ms : List ServerInfo} (h : (idsOf ms).Nodup) :
    (sortIds ms).Nodup :=
  ((sortIds_perm ms).nodup_iff).mpr h

theorem containsId_eq_mem (ms : List ServerInfo) (sid : String) :
    containsId ms sid = true ↔ sid ∈ idsOf ms := by
  simp [containsId, idsOf, List.any_eq_true, List.mem_map, beq_iff_eq]

theorem idsOf_append (ms : List ServerInfo) (r : ServerInfo) :
    idsOf (ms ++ [r]) = idsOf ms ++ [r.server_id] := by
  simp [idsOf]

theorem idsOf_filter_ne (ms : List ServerInfo) (sid : String) :
    idsOf (ms.filter (fun r => r.server_id ≠ sid))
      = (idsOf ms).filter (fun x => x ≠ sid) := by
  simp [idsOf, List.filter_map, Function.comp_def]

theorem idsOf_setLeader (st : RingManager) (sid : String) :
    idsOf (setLeader st sid).ring_members = idsOf st.ring_members := by
  unfold setLeader
  by_cases h : containsId (st.ring_members.map (fun r => { r with is_leader := false })) sid
  · simp only [h, if_true, idsOf, List.map_map]
    apply List.map_congr_left
    intro r _
    by_cases hr : r.server_id = sid <;> simp [hr, Function.comp]
  · simp only [h, Bool.false_eq_true, if_false, idsOf, List.map_map]
    apply List.map_congr_left
    intro r _
    rfl

theorem sortIds_eq_of_ids_eq {ms ms' : List ServerInfo}
    (h : idsOf ms = idsOf ms') : sortIds ms = sortIds ms' := by
  unfold sortIds
  rw [h]

theorem ringWf_init (own : String) : RingWf (initRing own) := by
  constructor
  · simp [initRing, idsOf]
  · simp [initRing, sortIds, idsOf]
  · simp [initRing, computeNeighbors, sortIds, idsOf]

theorem ringWf_rebuild (st : RingManager)
    (h : (idsOf st.ring_members).Nodup) : RingWf (rebuild st) := by
  refine ⟨?_, ?_, ?_⟩ <;> simp [rebuild, h]

theorem ringWf_addServer {st : RingManager} (hwf : RingWf st)
    (sid ip : String) (port : Nat) (b : Bool) :
    RingWf (addServer st sid ip port b) := by
  unfold addServer
  by_cases h : containsId st.ring_members sid
  · simpa [h] using hwf
  · simp only [h, Bool.false_eq_true, if_false]
    apply ringWf_rebuild
    have hmem : sid ∉ idsOf st.ring_members := by
      intro hc
      exact h ((containsId_eq_mem _ _).mpr hc)
    simp [idsOf_append, List.nodup_append, hwf.nodup, hmem]

theorem ringWf_removeServer {st : RingManager} (hwf : RingWf st)
    (sid : String) : RingWf (removeServer st sid) := by
  unfold removeServer
  by_cases h : containsId st.ring_members sid
  · simp only [h, if_true]
    apply ringWf_rebuild
    rw [idsOf_filter_ne]
    exact hwf.nodup.filter _
  · simpa [h] using hwf

theorem ringWf_setLeader {st : RingManager} (hwf : RingWf st)
    (sid : String) : RingWf (setLeader st sid) := by
  refine ⟨?_, ?_, ?_⟩
  · rw [idsOf_setLeader]
    exact hwf.nodup
  · have : sortIds (setLeader st sid).ring_members = sortIds st.ring_members :=
      sortIds_eq_of_ids_eq (by rw [idsOf_setLeader])
    rw [show (setLeader st sid).ring_order = st.ring_order from rfl, this]
    exact hwf.order_eq
  · exact hwf.nbrs_eq

theorem ringWf_applyOp {st : RingManager} (hwf : RingWf st) (op : RingOp) :
    RingWf (applyOp st op) := by
  cases op with
  | add sid ip port b => exact ringWf_addServer hwf sid ip port b
  | remove sid => exact ringWf_removeServer hwf sid
  | setLead sid => exact ringWf_setLeader hwf sid

theorem ringWf_applyOps (own : String) (ops : List RingOp) :
    RingWf (applyOps (initRing own) ops) := by
  suffices h : ∀ (st : RingManager), RingWf st → RingWf (applyOps st ops) from
    h _ (ringWf_init own)
  induction ops with
  | nil => intro st hwf; exact hwf
  | cons op ops ih =>
      intro st hwf
      exact ih _ (ringWf_applyOp hwf op)

theorem applyOp_own (st : RingManager) (op : RingOp) :
    (applyOp st op).own_server_id = st.own_server_id := by
  cases op with
  | add sid ip port b =>
      simp only [applyOp, addServer]
      by_cases h : containsId st.ring_members sid <;> simp [h, rebuild]
  | remove sid =>
      simp only [applyOp, removeServer]
      by_cases h : containsId st.ring_members sid <;> simp [h, rebuild]
  | setLead sid => rfl

theorem applyOps_own (st : RingManager) (ops : List RingOp) :
    (applyOps st ops).own_server_id = st.own_server_id := by
  induction ops generalizing st with
  | nil => rfl
  | cons op ops ih =>
      show (applyOps (applyOp st op) ops).own_server_id = _
      rw [ih, applyOp_own]

theorem ringIndex_left_ne {n i : Nat} (hn : 2 ≤ n) (hi : i < n) :
    (i + n - 1) % n ≠ i := by
  rcases Nat.eq_zero_or_pos i with h0 | hpos
  · subst h0
    rw [Nat.zero_add, Nat.mod_eq_of_lt (by omega)]
    omega
  · have h1 : i + n - 1 = (i - 1) + n := by omega
    rw [h1, Nat.add_mod_right, Nat.mod_eq_of_lt (by omega)]
    omega

theorem ringIndex_right_ne {n i : Nat} (hn : 2 ≤ n) (hi : i < n) :
    (i + 1) % n ≠ i := by
  rcases Nat.lt_or_ge (i + 1) n with hlt | hge
  · rw [Nat.mod_eq_of_lt hlt]; omega
  · have : i + 1 = n := by omega
    rw [this, Nat.mod_self]
    omega

theorem computeNeighbors_of_not_mem {own : String} {order : List String}
    (h : own ∉ order) : computeNeighbors own order = (none, none) := by
  simp [computeNeighbors, h]

theorem computeNeighbors_singleton {own : String} {order : List String}
    (hmem : own ∈ order) (hlen : order.length = 1) :
    computeNeighbors own order = (none, none) := by
  simp [computeNeighbors, hmem, hlen]

theorem computeNeighbors_two_le {own : String} {order : List String}
    (hmem : own ∈ order) (hnd : order.Nodup) (hn : 2 ≤ order.length) :
    ∃ l r, computeNeighbors own order = (some l, some r) ∧ l ≠ own ∧ r ≠ own := by
  have hi : order.indexOf own < order.length := List.indexOf_lt_length.mpr hmem
  set n := order.length with hn_def
  set i := order.indexOf own with hi_def
  have hli : (i + n - 1) % n < n := Nat.mod_lt _ (by omega)
  have hri : (i + 1) % n < n := Nat.mod_lt _ (by omega)
  refine ⟨order.getD ((i + n - 1) % n) "", order.getD ((i + 1) % n) "", ?_, ?_, ?_⟩
  · simp only [computeNeighbors, hmem, if_true]
    rw [if_neg (by omega)]
  · rw [List.getD_eq_getElem _ _ hli]
    intro hc
    have hown : order[i] = own := List.getElem_indexOf hi
    rw [← hown] at hc
    exact ringIndex_left_ne hn hi ((hnd.getElem_inj_iff).mp hc)
  · rw [List.getD_eq_getElem _ _ hri]
    intro hc
    have hown : order[i] = own := List.getElem_indexOf hi
    rw [← hown] at hc
    exact ringIndex_right_ne hn hi ((hnd.getElem_inj_iff).mp hc)

/-- Leader flag of every record after the clearing pass of set_leader. -/
theorem setLeader_leader_only (st : RingManager) (sid : String) :
    ∀ r ∈ (setLeader st sid).ring_members, r.is_leader = true → r.server_id = sid := by
  intro r hr hlead
  unfold setLeader at hr
  by_cases h : containsId (st.ring_members.map (fun x => { x with is_leader := false })) sid
  · simp only [h, if_true, List.mem_map] at hr
    obtain ⟨x, ⟨a, _, hax⟩, hx⟩ := hr
    by_cases hxid : x.server_id = sid
    · rw [← hx]; simp [hxid]
    · rw [← hx] at hlead
      simp only [hxid, if_false] at hlead
      rw [← hax] at hlead
      simp at hlead
  · simp only [h, Bool.false_eq_true, if_false, List.mem_map] at hr
    obtain ⟨x, _, hx⟩ := hr
    rw [← hx] at hlead
    simp at hlead

theorem nodup_const_length_le_one {l : List String} {c : String}
    (hnd : l.Nodup) (h : ∀ x ∈ l, x = c) : l.length ≤ 1 := by
  match l, hnd, h with
  | [], _, _ => simp
  | [a], _, _ => simp
  | a :: b :: rest, hnd, h =>
      exfalso
      have ha := h a (by simp)
      have hb := h b (by simp)
      simp only [List.nodup_cons, List.mem_cons] at hnd
      exact hnd.1 (Or.inl (ha.trans hb.symm))

theorem leaderCount_le_one_setLeader {st : RingManager} (sid : String)
    (hnd : (idsOf st.ring_members).Nodup) :
    leaderCount (setLeader st sid).ring_members ≤ 1 := by
  have key : ∀ x ∈ idsOf ((setLeader st sid).ring_members.filter (fun r => r.is_leader)),
      x = sid := by
    intro x hx
    simp only [idsOf, List.mem_map] at hx
    obtain ⟨r, hr, hrx⟩ := hx
    rw [List.mem_filter] at hr
    rw [← hrx]
    exact setLeader_leader_only st sid r hr.1 hr.2
  have hnd' : (idsOf (setLeader st sid).ring_members).Nodup := by
    rw [idsOf_setLeader]; exact hnd
  have hndf : (idsOf ((setLeader st sid).ring_members.filter (fun r => r.is_leader))).Nodup :=
    List.Nodup.sublist (List.Sublist.map _ (List.filter_sublist _)) hnd'
  have hlen := nodup_const_length_le_one hndf key
  unfold leaderCount
  simpa [idsOf] using hlen

theorem leaderCount_append_false (ms : List ServerInfo) (r : ServerInfo)
    (h : r.is_leader = false) : leaderCount (ms ++ [r]) = leaderCount ms := by
  simp [leaderCount, List.filter_append, h]

theorem leaderCount_filter_le (ms : List ServerInfo) (p : ServerInfo → Bool) :
    leaderCount (ms.filter p) ≤ leaderCount ms := by
  unfold leaderCount
  exact List.Sublist.length_le (List.Sublist.filter _ (List.filter_sublist _))

theorem leaderCount_applyOp {st : RingManager} {op : RingOp}
    (hwf : RingWf st) (hinv : leaderCount st.ring_members ≤ 1)
    (hop : op.addsNonLeader) :
    leaderCount (applyOp st op).ring_members ≤ 1 := by
  cases op with
  | add sid ip port b =>
      have hb : b = false := hop
      subst hb
      simp only [applyOp, addServer]
      by_cases h : containsId st.ring_members sid
      · simpa [h] using hinv
      · simp only [h, Bool.false_eq_true, if_false, rebuild]
        rw [leaderCount_append_false _ _ rfl]
        exact hinv
  | remove sid =>
      simp only [applyOp, removeServer]
      by_cases h : containsId st.ring_members sid
      · simp only [h, if_true, rebuild]
        exact le_trans (leaderCount_filter_le _ _) hinv
      · simpa [h] using hinv
  | setLead sid => exact leaderCount_le_one_setLeader sid hwf.nodup

theorem strLtB_asymm : ∀ (a b : List Char), strLtB a b = true → strLtB b a = false
  | [], [] => by simp [strLtB]
  | [], _ :: _ => by simp [strLtB]
  | _ :: _, [] => by simp [strLtB]
  | a :: as, b :: bs => by
      simp only [strLtB]
      by_cases h1 : a < b
      · intro _
        rw [if_neg (lt_asymm h1), if_pos h1]
      · by_cases h2 : b < a
        · simp [h1, h2]
        · simp only [h1, h2, if_false]
          exact strLtB_asymm as bs

theorem pyStrLt_asymm {a b : String} (h : pyStrLt a b = true) : pyStrLt b a = false :=
  strLtB_asymm a.data b.data h

theorem setLeader_right_neighbor (st : RingManager) (sid : String) :
    (setLeader st sid).right_neighbor = st.right_neighbor := rfl

theorem containsId_clear (ms : List ServerInfo) (sid : String) :
    containsId (ms.map (fun r => { r with is_leader := false })) sid
      = containsId ms sid := by
  simp [containsId, List.any_map, Function.comp_def]

theorem leaderCount_applyOps (ops : List RingOp) :
    ∀ (st : RingManager), RingWf st → leaderCount st.ring_members ≤ 1 →
      (∀ op ∈ ops, op.addsNonLeader) →
      leaderCount (applyOps st ops).ring_members ≤ 1 := by
  induction ops with
  | nil => intro st _ hinv _; exact hinv
  | cons op ops ih =>
      intro st hwf hinv hops
      have hop := hops op (List.mem_cons_self _ _)
      have hops' : ∀ o ∈ ops, o.addsNonLeader :=
        fun o ho => hops o (List.mem_cons_of_mem _ ho)
      exact ih _ (ringWf_applyOp hwf op) (leaderCount_applyOp hwf hinv hop) hops'

theorem lastN_of_length_le {n : Nat} {xs : List α} (h : xs.length ≤ n) :
    lastN n xs = xs := by
  unfold lastN
  rw [Nat.sub_eq_zero_of_le h, List.drop_zero]

theorem lastN_length (n : Nat) (xs : List α) :
    (lastN n xs).length = min n xs.length := by
  unfold lastN
  rw [List.length_drop]
  omega

theorem lastN_length_le (n : Nat) (xs : List α) : (lastN n xs).length ≤ n := by
  rw [lastN_length]; omega

theorem lastN_suffix (n : Nat) (xs : List α) : (lastN n xs).IsSuffix xs :=
  List.drop_suffix _ _

theorem lastN_lastN_append (k : Nat) (xs ys : List α) :
    lastN k (lastN k xs ++ ys) = lastN k (xs ++ ys) := by
  by_cases h : xs.length ≤ k
  · rw [lastN_of_length_le h]
  · have hk : k ≤ xs.length := by omega
    have e1 : lastN k xs ++ ys = (xs ++ ys).drop (xs.length - k) := by
      unfold lastN
      exact (List.drop_append_of_le_length (by omega)).symm
    have hlen : (lastN k xs ++ ys).length - k = ys.length := by
      rw [List.length_append, lastN_length]
      omega
    show (lastN k xs ++ ys).drop ((lastN k xs ++ ys).length - k) = _
    rw [hlen, e1, List.drop_drop]
    unfold lastN
    congr 1
    rw [List.length_append]
    omega

theorem addToHistory_eq {hist : List ChatMsg} (m : ChatMsg) :
    addToHistory hist m = lastN 1000 (hist ++ [m]) := by
  unfold addToHistory
  by_cases hl : (hist ++ [m]).length > 1000
  · rw [if_pos hl]
  · rw [if_neg hl, lastN_of_length_le (by omega)]

theorem foldl_addToHistory (ms : List ChatMsg) :
    ∀ hist : List ChatMsg, hist.length ≤ 1000 →
      List.foldl addToHistory hist ms = lastN 1000 (hist ++ ms) := by
  induction ms with
  | nil =>
      intro hist h
      simp only [List.foldl_nil, List.append_nil]
      exact (lastN_of_length_le h).symm
  | cons m ms ih =>
      intro hist _
      rw [List.foldl_cons, addToHistory_eq m,
        ih _ (lastN_length_le 1000 _), lastN_lastN_append]
      congr 1
      simp

/-- C1: a node that is not the current leader, on an inbound FORWARD_MESSAGE
record, leaves its MessageHandler state completely unchanged: nothing is
appended to the history buffer, nothing is delivered to local clients, and
nothing is sent to any peer.  The claim (and the spec) say the embedded
original message is appended to the history and delivered to the local
clients; the code instead hits the first FORWARD_MESSAGE dispatch branch,
whose non-leader arm only logs a warning, while the distribution branch of
_handle_server_message is dead code for this type tag. -/
theorem c1_nonleader_drops_inbound_forward (ownId : String) (st : MHState) (fw : FwdMsg) :
    handleServerMessage ownId false st (.forward fw) = st := rfl

/-- C2: inbound ELECTION handling with a defined right neighbor follows the
three Chang-Roberts cases of the claim: completion with winner C when the
originator is the node itself, unchanged forwarding with hop+1 when the
candidate is greater than the own id, and candidate replacement by the own
id when the candidate is smaller. -/
theorem c2_election_message_cases (own cand orig : String) (hop : Nat) :
    (orig = own → handleElectionMessage own true cand orig hop = .complete cand)
    ∧ (orig ≠ own → pyStrLt own cand = true →
        handleElectionMessage own true cand orig hop = .forward cand orig (hop + 1))
    ∧ (orig ≠ own → pyStrLt cand own = true →
        handleElectionMessage own true cand orig hop = .forward own orig (hop + 1)) := by
  refine ⟨fun h => ?_, fun h1 h2 => ?_, fun h1 h2 => ?_⟩
  · simp [handleElectionMessage, h]
  · simp [handleElectionMessage, h1, h2]
  · have h3 : pyStrLt own cand = false := pyStrLt_asymm h2
    simp [handleElectionMessage, h1, h2, h3]

/-- Witness for C2 at concrete inputs: node b completes an election it
originated, forwards a larger candidate c unchanged, and replaces a smaller
candidate a with itself. -/
theorem c2_election_message_cases_witness :
    handleElectionMessage "b" true "c" "b" 3 = .complete "c"
    ∧ handleElectionMessage "b" true "c" "a" 1 = .forward "c" "a" 2
    ∧ handleElectionMessage "b" true "a" "c" 1 = .forward "b" "c" 2 :=
  ⟨(c2_election_message_cases "b" "c" "b" 3).1 rfl,
   (c2_election_message_cases "b" "c" "a" 1).2.1 (by decide) (by decide),
   (c2_election_message_cases "b" "a" "c" 1).2.2 (by decide) (by decide)⟩

/-- C3 counterexample: the claim also asserts that the election originator
never re-forwards the announcement.  Node a is the originator of an
election (originator field equals its own id) and completes it with winner
b; when the LEADER_ANNOUNCEMENT for b then reaches a, a does re-forward it,
because the code stops the traversal at the announced leader, not at the
election originator. -/
theorem c3_originator_reforwards_counterexample :
    handleElectionMessage "a" true "b" "a" 1 = .complete "b"
    ∧ (handleLeaderAnnouncement
        (applyOps (initRing "a") [.add "a" "i" 1 false, .add "b" "i" 2 false]) "b").2 = true := by
  decide

/-- C3 (amended): a node with a defined right neighbor re-forwards an
inbound LEADER_ANNOUNCEMENT if and only if the announced leader id differs
from its own id; consequently the announced leader itself, not the election
originator, is the node that stops the traversal.  The node also accepts
the announced leader: afterwards only records carrying the announced id can
have the leader flag set. -/
theorem c3_announcement_forward_iff (st : RingManager) (leaderId : String)
    (h : st.right_neighbor.isSome = true) :
    ((handleLeaderAnnouncement st leaderId).2 = true ↔ leaderId ≠ st.own_server_id)
    ∧ (∀ r ∈ (handleLeaderAnnouncement st leaderId).1.ring_members,
        r.is_leader = true → r.server_id = leaderId) := by
  constructor
  · show (decide (leaderId ≠ st.own_server_id)
        && (setLeader st leaderId).right_neighbor.isSome) = true ↔ _
    rw [setLeader_right_neighbor, h]
    simp
  · exact setLeader_leader_only st leaderId

/-- Witness for C3 at a concrete state: node a with right neighbor b,
announcement for leader b, forward flag true, matching the iff. -/
theorem c3_announcement_forward_iff_witness :
    (handleLeaderAnnouncement
      (applyOps (initRing "a") [.add "a" "i" 1 false, .add "b" "i" 2 false]) "b").2 = true
      ↔ ("b" : String) ≠ (applyOps (initRing "a")
          [.add "a" "i" 1 false, .add "b" "i" 2 false]).own_server_id :=
  (c3_announcement_forward_iff
    (applyOps (initRing "a") [.add "a" "i" 1 false, .add "b" "i" 2 false]) "b" (by decide)).1

/-- C4 counterexample: the RingManager operations alone do not maintain the
single-leader invariant: two add_server calls with is_leader = true leave
two records flagged as leader, because add_server never clears existing
flags. -/
theorem c4_two_leaders_counterexample :
    1 < leaderCount (applyOps (initRing "a")
      [.add "b" "ip" 1 true, .add "c" "ip" 1 true]).ring_members := by
  decide

/-- C4 (amended): along every operation sequence whose add_server calls all
pass is_leader = false (the default, and the only form used by the call
sites in src/server.py), at most one record is flagged as leader; and
set_leader(id) always leaves the leader flag only on records carrying that
id, clearing it everywhere else. -/
theorem c4_single_leader_invariant (own : String) (ops : List RingOp)
    (h : ∀ op ∈ ops, op.addsNonLeader) :
    leaderCount (applyOps (initRing own) ops).ring_members ≤ 1
    ∧ (∀ (st : RingManager) (sid : String),
        ∀ r ∈ (setLeader st sid).ring_members, r.is_leader = true → r.server_id = sid) :=
  ⟨leaderCount_applyOps ops _ (ringWf_init own) (by simp [initRing, leaderCount]) h,
   setLeader_leader_only⟩

/-- Witness for C4 on a concrete non-leader-add sequence ending in a
set_leader call. -/
theorem c4_single_leader_invariant_witness :
    leaderCount (applyOps (initRing "a")
      [.add "a" "i" 1 false, .add "b" "i" 2 false, .setLead "b"]).ring_members ≤ 1 :=
  (c4_single_leader_invariant "a"
    [.add "a" "i" 1 false, .add "b" "i" 2 false, .setLead "b"] (by decide)).1

/-- C5 counterexample: a reachable view with two members and undefined
neighbors.  The sequence adds b and c but never the own id a, so
_rebuild_ring clears both neighbors although the membership has two
members, contradicting the claim as stated. -/
theorem c5_two_members_no_neighbors_counterexample :
    2 ≤ (applyOps (initRing "a")
      [.add "b" "ip" 1 false, .add "c" "ip" 1 false]).ring_members.length
    ∧ (applyOps (initRing "a")
      [.add "b" "ip" 1 false, .add "c" "ip" 1 false]).right_neighbor = none := by
  decide

/-- C5 (amended): for every reachable ring view, a single-member view has
both neighbors null; a view of two or more members that contains the own
id has both neighbors defined and distinct from the own id; and a view not
containing the own id has both neighbors null regardless of its size. -/
theorem c5_neighbor_invariant (own : String) (ops : List RingOp) :
    ((applyOps (initRing own) ops).ring_members.length = 1 →
      (applyOps (initRing own) ops).left_neighbor = none
      ∧ (applyOps (initRing own) ops).right_neighbor = none)
    ∧ (2 ≤ (applyOps (initRing own) ops).ring_members.length →
        own ∈ idsOf (applyOps (initRing own) ops).ring_members →
        (applyOps (initRing own) ops).left_neighbor ≠ none
        ∧ (applyOps (initRing own) ops).right_neighbor ≠ none
        ∧ (applyOps (initRing own) ops).left_neighbor ≠ some own
        ∧ (applyOps (initRing own) ops).right_neighbor ≠ some own)
    ∧ (own ∉ idsOf (applyOps (initRing own) ops).ring_members →
        (applyOps (initRing own) ops).left_neighbor = none
        ∧ (applyOps (initRing own) ops).right_neighbor = none) := by
  set st := applyOps (initRing own) ops with hst
  have hwf : RingWf st := ringWf_applyOps own ops
  have hown : st.own_server_id = own := applyOps_own _ ops
  have hnb : (st.left_neighbor, st.right_neighbor)
      = computeNeighbors own st.ring_order := by
    rw [← hown]; exact hwf.nbrs_eq
  have hlen : st.ring_order.length = st.ring_members.length := by
    rw [hwf.order_eq]; exact length_sortIds _
  have hmem : own ∈ st.ring_order ↔ own ∈ idsOf st.ring_members := by
    rw [hwf.order_eq]; exact mem_sortIds
  refine ⟨?_, ?_, ?_⟩
  · intro h1
    by_cases hm : own ∈ st.ring_order
    · have := computeNeighbors_singleton hm (by omega)
      rw [this] at hnb
      exact ⟨congrArg Prod.fst hnb, congrArg Prod.snd hnb⟩
    · have := computeNeighbors_of_not_mem hm
      rw [this] at hnb
      exact ⟨congrArg Prod.fst hnb, congrArg Prod.snd hnb⟩
  · intro h2 hin
    have hm : own ∈ st.ring_order := hmem.mpr hin
    have hnd : st.ring_order.Nodup := by
      rw [hwf.order_eq]; exact nodup_sortIds hwf.nodup
    obtain ⟨l, r, heq, hl, hr⟩ := computeNeighbors_two_le hm hnd (by omega)
    rw [heq] at hnb
    have hleft : st.left_neighbor = some l := congrArg Prod.fst hnb
    have hright : st.right_neighbor = some r := congrArg Prod.snd hnb
    refine ⟨by rw [hleft]; simp, by rw [hright]; simp, ?_, ?_⟩
    · rw [hleft]; intro hc; exact hl (Option.some.inj hc)
    · rw [hright]; intro hc; exact hr (Option.some.inj hc)
  · intro hnotin
    have hm : own ∉ st.ring_order := fun hc => hnotin (hmem.mp hc)
    have := computeNeighbors_of_not_mem hm
    rw [this] at hnb
    exact ⟨congrArg Prod.fst hnb, congrArg Prod.snd hnb⟩

/-- Witness for C5 on a three-member ring containing the own id b: both
neighbors defined and distinct from b. -/
theorem c5_neighbor_invariant_witness :
    (applyOps (initRing "b")
      [.add "b" "i" 1 false, .add "a" "i" 2 false, .add "c" "i" 3 false]).left_neighbor ≠ none
    ∧ (applyOps (initRing "b")
      [.add "b" "i" 1 false, .add "a" "i" 2 false, .add "c" "i" 3 false]).right_neighbor ≠ none
    ∧ (applyOps (initRing "b")
      [.add "b" "i" 1 false, .add "a" "i" 2 false, .add "c" "i" 3 false]).left_neighbor ≠ some "b"
    ∧ (applyOps (initRing "b")
      [.add "b" "i" 1 false, .add "a" "i" 2 false, .add "c" "i" 3 false]).right_neighbor ≠ some "b" :=
  (c5_neighbor_invariant "b"
    [.add "b" "i" 1 false, .add "a" "i" 2 false, .add "c" "i" 3 false]).2.1
    (by decide) (by decide)

/-- C6 counterexample: with an empty history buffer the claim requires a
MESSAGE_HISTORY record whose messages are the last min(50, 0) = 0 entries,
but _on_client_joined sends no record at all (the history guard is falsy). -/
theorem c6_empty_history_counterexample :
    onClientJoinedHistory ([] : List ChatMsg) = none
    ∧ onClientJoinedHistory ([] : List ChatMsg) ≠ some (lastN 50 ([] : List ChatMsg)) :=
  ⟨rfl, by decide⟩

/-- C6 (amended): on a client join with a non-empty history buffer, the
MESSAGE_HISTORY record sent to the client carries exactly the last
min(50, length) entries of the buffer, in buffer order (a suffix of the
buffer); with an empty buffer no record is sent. -/
theorem c6_history_on_join (hist : List ChatMsg) (h : hist ≠ []) :
    onClientJoinedHistory hist = some (lastN 50 hist)
    ∧ (lastN 50 hist).length = min 50 hist.length
    ∧ (lastN 50 hist).IsSuffix hist := by
  refine ⟨?_, lastN_length 50 hist, lastN_suffix 50 hist⟩
  simp [onClientJoinedHistory, h]

/-- Sample chat message for concrete witnesses. -/
def sampleChat : ChatMsg :=
  { message_id := "m1", timestamp := "t1", username := "alice",
    content := "hello", client_id := some "c1" }

/-- Witness for C6 on a one-entry history. -/
theorem c6_history_on_join_witness :
    onClientJoinedHistory [sampleChat] = some (lastN 50 [sampleChat])
    ∧ (lastN 50 [sampleChat]).length = min 50 [sampleChat].length :=
  ⟨(c6_history_on_join [sampleChat] (by decide)).1,
   (c6_history_on_join [sampleChat] (by decide)).2.1⟩

/-- C7: after any sequence of _add_to_history appends starting from the
empty buffer, the buffer is exactly the last min(1000, n) appended messages
in append order (FIFO eviction of the oldest), and its length never
exceeds 1000. -/
theorem c7_history_buffer_bound (ms : List ChatMsg) :
    List.foldl addToHistory [] ms = lastN 1000 ms
    ∧ (List.foldl addToHistory [] ms).length ≤ 1000 := by
  have h := foldl_addToHistory ms [] (by simp)
  rw [List.nil_append] at h
  exact ⟨h, by rw [h]; exact lastN_length_le 1000 ms⟩

/-- C8: add_server on an id already in the membership returns early and
leaves the whole ring view unchanged (membership records with their ip,
port and leader flags, the ring order, and both neighbors), whatever the
arguments of the repeated call. -/
theorem c8_addServer_idempotent (st : RingManager) (sid ip : String)
    (port : Nat) (b : Bool) (h : containsId st.ring_members sid = true) :
    addServer st sid ip port b = st := by
  simp [addServer, h]

/-- Witness for C8: re-adding b with different ip, port and leader flag
leaves the concrete view untouched. -/
theorem c8_addServer_idempotent_witness :
    addServer (applyOps (initRing "a") [.add "b" "ip" 1 false]) "b" "other" 99 true
      = applyOps (initRing "a") [.add "b" "ip" 1 false] :=
  c8_addServer_idempotent _ "b" "other" 99 true (by decide)

/-- C10: set_leader with an id that is not a member clears every leader
flag and sets none: afterwards all records have is_leader false, get_leader
returns none, and the member set with each record ip and port is unchanged. -/
theorem c10_setLeader_unknown_id (st : RingManager) (sid : String)
    (h : containsId st.ring_members sid = false) :
    ((setLeader st sid).ring_members.all (fun r => !r.is_leader)) = true
    ∧ getLeader (setLeader st sid) = none
    ∧ (setLeader st sid).ring_members.map (fun r => (r.server_id, r.ip, r.port))
        = st.ring_members.map (fun r => (r.server_id, r.ip, r.port)) := by
  have hc : containsId (st.ring_members.map (fun r => { r with is_leader := false })) sid
      = false := by rw [containsId_clear]; exact h
  have hms : (setLeader st sid).ring_members
      = st.ring_members.map (fun r => { r with is_leader := false }) := by
    unfold setLeader
    simp [hc]
  refine ⟨?_, ?_, ?_⟩
  · rw [hms]
    simp [List.all_eq_true]
  · unfold getLeader
    rw [hms]
    apply List.find?_eq_none.mpr
    intro x hx
    simp only [List.mem_map] at hx
    obtain ⟨a, _, ha⟩ := hx
    rw [← ha]
    simp
  · rw [hms, List.map_map]
    apply List.map_congr_left
    intro r _
    rfl

/-- Witness for C10: clearing the leader via an unknown id zz on a view
whose leader was a. -/
theorem c10_setLeader_unknown_id_witness :
    ((setLeader (applyOps (initRing "a") [.add "a" "i" 1 false, .setLead "a"]) "zz").ring_members.all
      (fun r => !r.is_leader)) = true
    ∧ getLeader (setLeader (applyOps (initRing "a") [.add "a" "i" 1 false, .setLead "a"]) "zz") = none :=
  ⟨(c10_setLeader_unknown_id _ "zz" (by decide)).1,
   (c10_setLeader_unknown_id _ "zz" (by decide)).2.1⟩

/-!
Wire codec (src/protocol.py).  serialize_message is json.dumps followed by
UTF-8 encoding; deserialize_message is UTF-8 decoding followed by
json.loads, returning None on any failure.  The JSON value universe of the
protocol records (objects, arrays, strings, integers, booleans, null;
Python message dicts never hold floats) is modelled by JVal, with strings
as code-point lists and objects as insertion-ordered key-value lists; the
renderer mirrors json.dumps with its defaults (ensure_ascii=True,
separators given by item ", " and key ": "), and the parser mirrors
the strict json.loads scanner on that fragment.  Two deliberate
restrictions of the model, both outside the image of the encoder: lone
UTF-16 surrogates in \-u escapes are rejected (they are not representable
as Lean Char scalar values), and number syntax beyond optionally signed
integer digit runs is not parsed (the protocol records only carry
integers). -/

/-- JSON value fragment used by the protocol records. -/
inductive JVal : Type where
  | jnull
  | jbool (b : Bool)
  | jint (n : Int)
  | jstr (s : List Char)
  | jarr (elems : List JVal)
  | jobj (fields : List (List Char × JVal))

/-- Left brace character, written by its code point. -/
def lbrace : Char := Char.ofNat 123

/-- Right brace character, written by its code point. -/
def rbrace : Char := Char.ofNat 125

/-- Lowercase hex digit character for a value below 16, as Python
format(x) with the 04x spec emits. -/
def hexDigitChar (n : Nat) : Char :=
  if n < 10 then Char.ofNat (48 + n) else Char.ofNat (87 + n)

/-- Four lowercase hex digits of a code unit below 0x10000. -/
def hex4 (n : Nat) : List Char :=
  [hexDigitChar (n / 4096 % 16), hexDigitChar (n / 256 % 16),
   hexDigitChar (n / 16 % 16), hexDigitChar (n % 16)]

/-- Escape of one character in a JSON string, as json.dumps with
ensure_ascii=True produces it: quote and backslash get two-character
escapes, the five named control characters their mnemonic escapes,
printable ASCII stays literal, everything else becomes \-u hex escapes,
with astral code points split into a surrogate pair. -/
def escChar (c : Char) : List Char :=
  if c = '"' then ['\\', '"']
  else if c = '\\' then ['\\', '\\']
  else if c = Char.ofNat 8 then ['\\', 'b']
  else if c = Char.ofNat 9 then ['\\', 't']
  else if c = Char.ofNat 10 then ['\\', 'n']
  else if c = Char.ofNat 12 then ['\\', 'f']
  else if c = Char.ofNat 13 then ['\\', 'r']
  else if 32 ≤ c.toNat ∧ c.toNat ≤ 126 then [c]
  else if c.toNat < 65536 then '\\' :: 'u' :: hex4 c.toNat
  else
    '\\' :: 'u' :: hex4 (55296 + (c.toNat - 65536) / 1024)
      ++ '\\' :: 'u' :: hex4 (56320 + (c.toNat - 65536) % 1024)

/-- Escaped body of a JSON string. -/
def escList : List Char → List Char
  | [] => []
  | c :: cs => escChar c ++ escList cs

/-- Decimal digit character. -/
def digitChar (n : Nat) : Char := Char.ofNat (48 + n)

/-- Decimal digits of a natural number, most significant first (Python
str of a nonnegative int). -/
def natDigits (n : Nat) : List Char :=
  if _h : n < 10 then [digitChar n]
  else natDigits (n / 10) ++ [digitChar (n % 10)]
decreasing_by exact Nat.div_lt_self (by omega) (by omega)

/-- Decimal rendering of an integer (Python str of an int). -/
def renderInt (n : Int) : List Char :=
  if n < 0 then '-' :: natDigits n.natAbs else natDigits n.natAbs

mutual

/-- json.dumps of a value, as a code-point sequence. -/
def render : JVal → List Char
  | .jnull => ['n', 'u', 'l', 'l']
  | .jbool true => ['t', 'r', 'u', 'e']
  | .jbool false => ['f', 'a', 'l', 's', 'e']
  | .jint n => renderInt n
  | .jstr s => '"' :: (escList s ++ ['"'])
  | .jarr xs => '[' :: (renderElems xs ++ [']'])
  | .jobj kvs => lbrace :: (renderFields kvs ++ [rbrace])

/-- Array items joined by the default item separator comma-space. -/
def renderElems : List JVal → List Char
  | [] => []
  | [x] => render x
  | x :: y :: rest => render x ++ ',' :: ' ' :: renderElems (y :: rest)

/-- Object entries key colon-space value, joined by comma-space. -/
def renderFields : List (List Char × JVal) → List Char
  | [] => []
  | [(k, v)] => '"' :: (escList k ++ '"' :: ':' :: ' ' :: render v)
  | (k, v) :: p :: rest =>
      '"' :: (escList k ++ '"' :: ':' :: ' ' :: render v)
        ++ ',' :: ' ' :: renderFields (p :: rest)

end

mutual

/-- Fuel measure of a value: an upper bound on the parser recursion depth
needed to read it back. -/
def jsizeV : JVal → Nat
  | .jnull => 1
  | .jbool _ => 1
  | .jint _ => 1
  | .jstr _ => 1
  | .jarr xs => 1 + jsizeL xs
  | .jobj kvs => 1 + jsizeF kvs

/-- Fuel measure of an array item list. -/
def jsizeL : List JVal → Nat
  | [] => 0
  | x :: rest => 1 + jsizeV x + jsizeL rest

/-- Fuel measure of an object entry list. -/
def jsizeF : List (List Char × JVal) → Nat
  | [] => 0
  | (_, v) :: rest => 1 + jsizeV v + jsizeF rest

end

/-- Duplicate-freedom of a key list (a Python dict cannot hold two equal
keys). -/
def keysNodup : List (List Char) → Bool
  | [] => true
  | k :: ks => (!ks.contains k) && keysNodup ks

mutual

/-- Validity of a record value: every object level has duplicate-free
keys, as any dict passed to json.dumps does. -/
def validB : JVal → Bool
  | .jnull => true
  | .jbool _ => true
  | .jint _ => true
  | .jstr _ => true
  | .jarr xs => validL xs
  | .jobj kvs => keysNodup (kvs.map Prod.fst) && validF kvs

/-- Validity of every array item. -/
def validL : List JVal → Bool
  | [] => true
  | x :: rest => validB x && validL rest

/-- Validity of every object entry value. -/
def validF : List (List Char × JVal) → Bool
  | [] => true
  | (_, v) :: rest => validB v && validF rest

end

/-- JSON whitespace skipped by the loads scanner: space, tab, newline,
carriage return. -/
def isWsChar (c : Char) : Bool :=
  c = ' ' || c = Char.ofNat 9 || c = Char.ofNat 10 || c = Char.ofNat 13

/-- Skip leading JSON whitespace. -/
def skipWs : List Char → List Char
  | [] => []
  | c :: cs => if isWsChar c then skipWs cs else c :: cs

/-- Decimal digit test. -/
def isDigitB (c : Char) : Bool :=
  decide (48 ≤ c.toNat ∧ c.toNat ≤ 57)

/-- Value of one hex digit, either case, as the loads scanner accepts. -/
def hexVal (c : Char) : Option Nat :=
  if 48 ≤ c.toNat ∧ c.toNat ≤ 57 then some (c.toNat - 48)
  else if 97 ≤ c.toNat ∧ c.toNat ≤ 102 then some (c.toNat - 87)
  else if 65 ≤ c.toNat ∧ c.toNat ≤ 70 then some (c.toNat - 55)
  else none

/-- Backslash map of the loads scanner for the short escapes. -/
def shortEsc (c : Char) : Option Char :=
  if c = '"' then some '"'
  else if c = '\\' then some '\\'
  else if c = '/' then some '/'
  else if c = 'b' then some (Char.ofNat 8)
  else if c = 'f' then some (Char.ofNat 12)
  else if c = 'n' then some (Char.ofNat 10)
  else if c = 'r' then some (Char.ofNat 13)
  else if c = 't' then some (Char.ofNat 9)
  else none

/-- Escape decoder of the loads scanner, applied to the input directly
after a backslash: yields the decoded code point and the remaining input.
Short escapes map through the backslash table; a \-u escape reads four hex
digits, and a high surrogate must be completed by a second \-u low
surrogate escape (a lone surrogate is no scalar value and has no Char). -/
def escDecode (cs : List Char) : Option (Char × List Char) :=
  match cs with
  | [] => none
  | e :: cs₁ =>
    if e = 'u' then
      match cs₁ with
      | a :: b :: c₂ :: d :: cs₂ =>
        match hexVal a, hexVal b, hexVal c₂, hexVal d with
        | some x, some y, some z, some w =>
          if 55296 ≤ x * 4096 + y * 256 + z * 16 + w
              ∧ x * 4096 + y * 256 + z * 16 + w ≤ 56319 then
            match cs₂ with
            | e₁ :: e₂ :: a₂ :: b₂ :: c₃ :: d₂ :: cs₃ =>
              if e₁ = '\\' ∧ e₂ = 'u' then
                match hexVal a₂, hexVal b₂, hexVal c₃, hexVal d₂ with
                | some x₂, some y₂, some z₂, some w₂ =>
                  if 56320 ≤ x₂ * 4096 + y₂ * 256 + z₂ * 16 + w₂
                      ∧ x₂ * 4096 + y₂ * 256 + z₂ * 16 + w₂ ≤ 57343 then
                    some (Char.ofNat (65536
                      + (x * 4096 + y * 256 + z * 16 + w - 55296) * 1024
                      + (x₂ * 4096 + y₂ * 256 + z₂ * 16 + w₂ - 56320)), cs₃)
                  else none
                | _, _, _, _ => none
              else none
            | _ => none
          else if 56320 ≤ x * 4096 + y * 256 + z * 16 + w
              ∧ x * 4096 + y * 256 + z * 16 + w ≤ 57343 then none
          else some (Char.ofNat (x * 4096 + y * 256 + z * 16 + w), cs₂)
        | _, _, _, _ => none
      | _ => none
    else
      match shortEsc e with
      | some ch => some (ch, cs₁)
      | none => none

theorem escDecode_length {cs rest : List Char} {ch : Char}
    (h : escDecode cs = some (ch, rest)) : rest.length < cs.length := by
  unfold escDecode at h
  split at h
  · exact absurd h (by simp)
  · next e cs₁ =>
      split at h
      · split at h
        · next a b c₂ d cs₂ =>
            split at h
            · split at h
              · split at h
                · next e₁ e₂ a₂ b₂ c₃ d₂ cs₃ =>
                    split at h
                    · split at h
                      · split at h
                        · injection h with h1
                          injection h1 with _ h2
                          subst h2
                          simp
                          omega
                        · exact absurd h (by simp)
                      · exact absurd h (by simp)
                    · exact absurd h (by simp)
                · exact absurd h (by simp)
              · split at h
                · exact absurd h (by simp)
                · injection h with h1
                  injection h1 with _ h2
                  subst h2
                  simp
                  omega
            · exact absurd h (by simp)
        · exact absurd h (by simp)
      · split at h
        · injection h with h1
          injection h1 with _ h2
          subst h2
          simp
        · exact absurd h (by simp)

/-- String body scanner of json.loads after an opening quote: returns the
decoded code points and the input after the closing quote.  Literal
control characters are rejected (strict mode); escapes go through
escDecode. -/
def parseStrBody : List Char → Option (List Char × List Char)
  | [] => none
  | c :: cs =>
    if c = '"' then some ([], cs)
    else if c = '\\' then
      match _hesc : escDecode cs with
      | some (ch, rest) =>
        match parseStrBody rest with
        | some (s, r) => some (ch :: s, r)
        | none => none
      | none => none
    else if c.toNat < 32 then none
    else
      match parseStrBody cs with
      | some (s, r) => some (c :: s, r)
      | none => none
termination_by cs => cs.length
decreasing_by
  · have := escDecode_length _hesc
    simp
    omega
  · simp

/-- Continuation test used by the round-trip lemmas: the input after a
rendered number must not begin with a further digit, which would extend
the maximal digit run. -/
def numOkB : List Char → Bool
  | [] => true
  | c :: _ => !isDigitB c

/-- Numeric value of a digit run, most significant first. -/
def digitsToNat (ds : List Char) : Nat :=
  ds.foldl (fun a c => 10 * a + (c.toNat - 48)) 0

/-- Integer token scanner: an optional minus sign followed by a maximal
nonempty digit run, as the loads number grammar reads the integer part
(the protocol records carry no floats, so fractions and exponents are not
modelled). -/
def parseIntTok : List Char → Option (JVal × List Char)
  | [] => none
  | c :: cs' =>
    if c = '-' then
      if (cs'.takeWhile isDigitB).isEmpty then none
      else some (.jint (-(digitsToNat (cs'.takeWhile isDigitB) : Int)),
        cs'.dropWhile isDigitB)
    else
      if ((c :: cs').takeWhile isDigitB).isEmpty then none
      else some (.jint ((digitsToNat ((c :: cs').takeWhile isDigitB) : Int)),
        (c :: cs').dropWhile isDigitB)

mutual

/-- One-value scanner of json.loads, fuel-indexed: skip whitespace, then
dispatch on the first character to the literal, string, array, object or
number scanner, returning the value and the unconsumed input. -/
def parseVal : Nat → List Char → Option (JVal × List Char)
  | 0, _ => none
  | fuel + 1, cs =>
    match skipWs cs with
    | [] => none
    | c :: rest =>
      if c = 'n' then
        match rest with
        | 'u' :: 'l' :: 'l' :: rest₂ => some (.jnull, rest₂)
        | _ => none
      else if c = 't' then
        match rest with
        | 'r' :: 'u' :: 'e' :: rest₂ => some (.jbool true, rest₂)
        | _ => none
      else if c = 'f' then
        match rest with
        | 'a' :: 'l' :: 's' :: 'e' :: rest₂ => some (.jbool false, rest₂)
        | _ => none
      else if c = '"' then
        match parseStrBody rest with
        | some (s, rest₂) => some (.jstr s, rest₂)
        | none => none
      else if c = '[' then
        match skipWs rest with
        | [] => none
        | c₂ :: rest₂ =>
          if c₂ = ']' then some (.jarr [], rest₂)
          else
            match parseElems fuel (c₂ :: rest₂) with
            | some (xs, rest₃) => some (.jarr xs, rest₃)
            | none => none
      else if c = lbrace then
        match skipWs rest with
        | [] => none
        | c₂ :: rest₂ =>
          if c₂ = rbrace then some (.jobj [], rest₂)
          else
            match parseFields fuel (c₂ :: rest₂) with
            | some (kvs, rest₃) => some (.jobj kvs, rest₃)
            | none => none
      else parseIntTok (c :: rest)

/-- Nonempty array item loop: value, then comma and recursion or closing
bracket. -/
def parseElems : Nat → List Char → Option (List JVal × List Char)
  | 0, _ => none
  | fuel + 1, cs =>
    match parseVal fuel cs with
    | some (v, rest) =>
      match skipWs rest with
      | [] => none
      | c :: rest₂ =>
        if c = ',' then
          match parseElems fuel rest₂ with
          | some (vs, rest₃) => some (v :: vs, rest₃)
          | none => none
        else if c = ']' then some ([v], rest₂)
        else none
    | none => none

/-- Nonempty object entry loop: quoted key, colon, value, then comma and
recursion or closing brace. -/
def parseFields : Nat → List Char → Option (List (List Char × JVal) × List Char)
  | 0, _ => none
  | fuel + 1, cs =>
    match skipWs cs with
    | [] => none
    | c :: cs₁ =>
      if c = '"' then
        match parseStrBody cs₁ with
        | some (k, cs₂) =>
          match skipWs cs₂ with
          | [] => none
          | c₂ :: cs₃ =>
            if c₂ = ':' then
              match parseVal fuel cs₃ with
              | some (v, cs₄) =>
                match skipWs cs₄ with
                | [] => none
                | c₃ :: cs₅ =>
                  if c₃ = ',' then
                    match parseFields fuel cs₅ with
                    | some (kvs, cs₆) => some ((k, v) :: kvs, cs₆)
                    | none => none
                  else if c₃ = rbrace then some ([(k, v)], cs₅)
                  else none
              | none => none
            else none
        | none => none
      else none

end

/-- json.loads on a whole document: one value, then nothing but trailing
whitespace.  The fuel bound length + 1 dominates the recursion depth of
any value the input can encode. -/
def parseJson (cs : List Char) : Option JVal :=
  match parseVal (cs.length + 1) cs with
  | some (v, rest) => if (skipWs rest).isEmpty then some v else none
  | none => none

/-- UTF-8 bytes of one scalar value (RFC 3629). -/
def utf8EncChar (c : Char) : List Nat :=
  if c.toNat < 128 then [c.toNat]
  else if c.toNat < 2048 then [192 + c.toNat / 64, 128 + c.toNat % 64]
  else if c.toNat < 65536 then
    [224 + c.toNat / 4096, 128 + c.toNat / 64 % 64, 128 + c.toNat % 64]
  else
    [240 + c.toNat / 262144, 128 + c.toNat / 4096 % 64,
     128 + c.toNat / 64 % 64, 128 + c.toNat % 64]

/-- UTF-8 encoding of a code-point sequence (Python str.encode utf-8). -/
def utf8Encode : List Char → List Nat
  | [] => []
  | c :: cs => utf8EncChar c ++ utf8Encode cs

/-- One step of strict UTF-8 decoding (Python bytes.decode utf-8):
decodes the leading scalar value, rejecting invalid lead bytes, truncated
or malformed continuations, overlong forms, surrogate code points and
values beyond Unicode. -/
def utf8DecodeStep (bs : List Nat) : Option (Char × List Nat) :=
  match bs with
  | [] => none
  | b :: bs' =>
    if b < 128 then some (Char.ofNat b, bs')
    else if b < 194 then none
    else if b < 224 then
      match bs' with
      | b₁ :: bs₁ =>
        if 128 ≤ b₁ ∧ b₁ < 192 then
          some (Char.ofNat ((b - 192) * 64 + (b₁ - 128)), bs₁)
        else none
      | [] => none
    else if b < 240 then
      match bs' with
      | b₁ :: b₂ :: bs₁ =>
        if 128 ≤ b₁ ∧ b₁ < 192 ∧ 128 ≤ b₂ ∧ b₂ < 192 then
          if (b - 224) * 4096 + (b₁ - 128) * 64 + (b₂ - 128) < 2048 then none
          else if 55296 ≤ (b - 224) * 4096 + (b₁ - 128) * 64 + (b₂ - 128)
              ∧ (b - 224) * 4096 + (b₁ - 128) * 64 + (b₂ - 128) < 57344 then none
          else some (Char.ofNat ((b - 224) * 4096 + (b₁ - 128) * 64 + (b₂ - 128)), bs₁)
        else none
      | _ => none
    else if b < 245 then
      match bs' with
      | b₁ :: b₂ :: b₃ :: bs₁ =>
        if 128 ≤ b₁ ∧ b₁ < 192 ∧ 128 ≤ b₂ ∧ b₂ < 192 ∧ 128 ≤ b₃ ∧ b₃ < 192 then
          if (b - 240) * 262144 + (b₁ - 128) * 4096 + (b₂ - 128) * 64 + (b₃ - 128) < 65536 then
            none
          else if 1114112 ≤ (b - 240) * 262144 + (b₁ - 128) * 4096
              + (b₂ - 128) * 64 + (b₃ - 128) then none
          else some (Char.ofNat ((b - 240) * 262144 + (b₁ - 128) * 4096
            + (b₂ - 128) * 64 + (b₃ - 128)), bs₁)
        else none
      | _ => none
    else none

theorem utf8DecodeStep_length {bs rest : List Nat} {ch : Char}
    (h : utf8DecodeStep bs = some (ch, rest)) : rest.length < bs.length := by
  unfold utf8DecodeStep at h
  split at h
  · exact absurd h (by simp)
  · split at h
    · injection h with h1
      injection h1 with _ h2
      subst h2
      simp
    · split at h
      · exact absurd h (by simp)
      · split at h
        · split at h
          · split at h
            · injection h with h1
              injection h1 with _ h2
              subst h2
              simp
              omega
            · exact absurd h (by simp)
          · exact absurd h (by simp)
        · split at h
          · split at h
            · split at h
              · split at h
                · exact absurd h (by simp)
                · split at h
                  · exact absurd h (by simp)
                  · injection h with h1
                    injection h1 with _ h2
                    subst h2
                    simp
                    omega
              · exact absurd h (by simp)
            · exact absurd h (by simp)
          · split at h
            · split at h
              · split at h
                · split at h
                  · exact absurd h (by simp)
                  · split at h
                    · exact absurd h (by simp)
                    · injection h with h1
                      injection h1 with _ h2
                      subst h2
                      simp
                      omega
                · exact absurd h (by simp)
              · exact absurd h (by simp)
            · exact absurd h (by simp)

/-- Strict UTF-8 decoding of a whole byte sequence, one scalar value at a
time. -/
def utf8Decode (bs : List Nat) : Option (List Char) :=
  match bs with
  | [] => some []
  | b :: bs' =>
    match _hstep : utf8DecodeStep (b :: bs') with
    | some (ch, rest) =>
      match utf8Decode rest with
      | some s => some (ch :: s)
      | none => none
    | none => none
termination_by bs.length
decreasing_by
  have := utf8DecodeStep_length _hstep
  omega

/-- serialize_message (src/protocol.py lines 30-41): json.dumps of the
record, UTF-8 encoded for network transfer. -/
def serialize_message (m : JVal) : List Nat :=
  utf8Encode (render m)

/-- deserialize_message (src/protocol.py lines 44-59): UTF-8 decode then
json.loads, with None returned on any decode or parse failure. -/
def deserialize_message (data : List Nat) : Option JVal :=
  match utf8Decode data with
  | some cs => parseJson cs
  | none => none

theorem char_ne_of_toNat_ne {a b : Char} (h : a.toNat ≠ b.toNat) : a ≠ b :=
  fun he => h (congrArg Char.toNat he)

theorem char_valid_ranges (c : Char) :
    c.toNat < 55296 ∨ (57344 ≤ c.toNat ∧ c.toNat < 1114112) := by
  rcases c.valid with h | ⟨h1, h2⟩
  · exact Or.inl h
  · exact Or.inr ⟨h1, h2⟩

theorem isWsChar_false {c : Char} (h32 : c.toNat ≠ 32) (h9 : c.toNat ≠ 9)
    (h10 : c.toNat ≠ 10) (h13 : c.toNat ≠ 13) : isWsChar c = false := by
  unfold isWsChar
  rw [decide_eq_false (fun he => h32 (by rw [he]; decide)),
      decide_eq_false (fun he => h9 (by rw [he]; decide)),
      decide_eq_false (fun he => h10 (by rw [he]; decide)),
      decide_eq_false (fun he => h13 (by rw [he]; decide))]
  rfl

theorem skipWs_cons_of_not_ws {c : Char} (cs : List Char) (h : isWsChar c = false) :
    skipWs (c :: cs) = c :: cs := by
  unfold skipWs
  simp [h]

theorem skipWs_cons_space (cs : List Char) : skipWs (' ' :: cs) = skipWs cs := rfl

theorem isDigitB_bounds {c : Char} (h : isDigitB c = true) :
    48 ≤ c.toNat ∧ c.toNat ≤ 57 := by
  simpa [isDigitB] using h

theorem digitChar_toNat : ∀ k, k < 10 → (digitChar k).toNat = 48 + k := by decide

theorem digitChar_digit : ∀ k, k < 10 → isDigitB (digitChar k) = true := by decide

theorem natDigits_ne_nil (n : Nat) : natDigits n ≠ [] := by
  unfold natDigits
  split <;> simp

theorem natDigits_digits (n : Nat) : ∀ c ∈ natDigits n, isDigitB c = true := by
  induction n using Nat.strong_induction_on with
  | _ n ih =>
    unfold natDigits
    split
    · next h =>
        intro c hc
        simp only [List.mem_singleton] at hc
        subst hc
        exact digitChar_digit n h
    · next h =>
        intro c hc
        rw [List.mem_append] at hc
        rcases hc with hc | hc
        · exact ih (n / 10) (Nat.div_lt_self (by omega) (by omega)) c hc
        · simp only [List.mem_singleton] at hc
          subst hc
          exact digitChar_digit (n % 10) (Nat.mod_lt _ (by omega))

theorem digitsToNat_natDigits (n : Nat) : digitsToNat (natDigits n) = n := by
  induction n using Nat.strong_induction_on with
  | _ n ih =>
    unfold natDigits
    split
    · next h =>
        unfold digitsToNat
        simp [digitChar_toNat n h]
    · next h =>
        unfold digitsToNat
        rw [List.foldl_append]
        have ihd := ih (n / 10) (Nat.div_lt_self (by omega) (by omega))
        unfold digitsToNat at ihd
        rw [ihd]
        simp only [List.foldl_cons, List.foldl_nil]
        rw [digitChar_toNat (n % 10) (Nat.mod_lt _ (by omega))]
        omega

/-- Continuation condition for maximal-run scanners: the suffix does not
begin with a character the predicate accepts. -/
def headNotP (p : Char → Bool) : List Char → Prop
  | [] => True
  | x :: _ => p x = false

theorem takeWhile_append_all (p : Char → Bool) (l₁ l₂ : List Char)
    (h : ∀ x ∈ l₁, p x = true) (h2 : headNotP p l₂) :
    (l₁ ++ l₂).takeWhile p = l₁ ∧ (l₁ ++ l₂).dropWhile p = l₂ := by
  induction l₁ with
  | nil =>
      simp only [List.nil_append]
      cases l₂ with
      | nil => simp
      | cons x xs =>
          have hx : p x = false := h2
          simp [List.takeWhile_cons, List.dropWhile_cons, hx]
  | cons a l ih =>
      have ha : p a = true := h a (List.mem_cons_self _ _)
      have hrest := ih (fun x hx => h x (List.mem_cons_of_mem _ hx))
      simp only [List.cons_append, List.takeWhile_cons, List.dropWhile_cons, ha,
        if_true]
      exact ⟨by rw [hrest.1], by rw [hrest.2]⟩

theorem renderInt_shape (n : Int) :
    ∃ c t, renderInt n = c :: t ∧ (c = '-' ∨ isDigitB c = true) := by
  unfold renderInt
  split
  · exact ⟨'-', natDigits n.natAbs, rfl, Or.inl rfl⟩
  · match hx : natDigits n.natAbs with
    | [] => exact absurd hx (natDigits_ne_nil _)
    | c :: t =>
        refine ⟨c, t, rfl, Or.inr ?_⟩
        exact natDigits_digits _ c (by rw [hx]; exact List.mem_cons_self _ _)

theorem parseIntTok_renderInt (n : Int) (rest : List Char)
    (hr : numOkB rest = true) :
    parseIntTok (renderInt n ++ rest) = some (.jint n, rest) := by
  have hrest : headNotP isDigitB rest := by
    cases rest with
    | nil => exact trivial
    | cons x t =>
        show isDigitB x = false
        simpa [numOkB] using hr
  have hdig := natDigits_digits n.natAbs
  have htd := takeWhile_append_all isDigitB (natDigits n.natAbs) rest hdig hrest
  have hnonempty : ((natDigits n.natAbs ++ rest).takeWhile isDigitB).isEmpty = false := by
    rw [htd.1]
    cases hx : natDigits n.natAbs with
    | nil => exact absurd hx (natDigits_ne_nil _)
    | cons c t => rfl
  unfold renderInt
  split
  · next hneg =>
      rw [List.cons_append]
      simp only [parseIntTok]
      rw [if_pos trivial, if_neg (by rw [hnonempty]; exact Bool.false_ne_true),
        htd.1, htd.2, digitsToNat_natDigits]
      have he : -((n.natAbs : Nat) : Int) = n := by omega
      rw [he]
  · next hpos =>
      obtain ⟨c, t, hx⟩ : ∃ c t, natDigits n.natAbs = c :: t := by
        cases hx : natDigits n.natAbs with
        | nil => exact absurd hx (natDigits_ne_nil _)
        | cons c t => exact ⟨c, t, rfl⟩
      have hc : isDigitB c = true := hdig c (by rw [hx]; exact List.mem_cons_self _ _)
      have hcne : c ≠ '-' := by
        intro he
        subst he
        exact absurd (isDigitB_bounds hc) (by decide)
      rw [hx, List.cons_append]
      simp only [parseIntTok]
      rw [if_neg hcne, ← List.cons_append, ← hx,
        if_neg (by rw [hnonempty]; exact Bool.false_ne_true),
        htd.1, htd.2, digitsToNat_natDigits]
      have he : ((n.natAbs : Nat) : Int) = n := by omega
      rw [he]

def consResult (c : Char) (o : Option (List Char × List Char)) :
    Option (List Char × List Char) :=
  match o with
  | some (s, r) => some (c :: s, r)
  | none => none

theorem hexVal_hexDigitChar : ∀ k, k < 16 → hexVal (hexDigitChar k) = some k := by decide

theorem parseStrBody_quote (X : List Char) : parseStrBody ('"' :: X) = some ([], X) := by
  simp only [parseStrBody, reduceIte]

theorem parseStrBody_esc {cs rest : List Char} {ch : Char}
    (h : escDecode cs = some (ch, rest)) :
    parseStrBody ('\\' :: cs) = consResult ch (parseStrBody rest) := by
  simp only [parseStrBody, Char.reduceEq, reduceIte]
  rw [h]
  rfl

theorem escDecode_short (e ch : Char) (X : List Char) (hu : e ≠ 'u')
    (he : shortEsc e = some ch) : escDecode (e :: X) = some (ch, X) := by
  unfold escDecode
  dsimp only []
  rw [if_neg hu, he]

theorem escDecode_u_bmp (n : Nat) (h16 : n < 65536) (hns : n < 55296 ∨ 57344 ≤ n)
    (X : List Char) :
    escDecode ('u' :: (hex4 n ++ X)) = some (Char.ofNat n, X) := by
  simp only [hex4, List.cons_append, List.nil_append]
  unfold escDecode
  dsimp only []
  rw [if_pos rfl]
  rw [hexVal_hexDigitChar (n / 4096 % 16) (by omega),
      hexVal_hexDigitChar (n / 256 % 16) (by omega),
      hexVal_hexDigitChar (n / 16 % 16) (by omega),
      hexVal_hexDigitChar (n % 16) (by omega)]
  dsimp only []
  rw [show n / 4096 % 16 * 4096 + n / 256 % 16 * 256 + n / 16 % 16 * 16 + n % 16 = n from by omega]
  rw [if_neg (by omega), if_neg (by omega)]
theorem escDecode_u_pair (u : Nat) (hu : u < 1048576) (X : List Char) :
    escDecode ('u' :: (hex4 (55296 + u / 1024)
      ++ ('\\' :: 'u' :: (hex4 (56320 + u % 1024) ++ X))))
      = some (Char.ofNat (65536 + u), X) := by
  simp only [hex4, List.cons_append, List.nil_append]
  unfold escDecode
  dsimp only []
  rw [if_pos rfl]
  rw [hexVal_hexDigitChar ((55296 + u / 1024) / 4096 % 16) (by omega),
      hexVal_hexDigitChar ((55296 + u / 1024) / 256 % 16) (by omega),
      hexVal_hexDigitChar ((55296 + u / 1024) / 16 % 16) (by omega),
      hexVal_hexDigitChar ((55296 + u / 1024) % 16) (by omega)]
  dsimp only []
  rw [show (55296 + u / 1024) / 4096 % 16 * 4096 + (55296 + u / 1024) / 256 % 16 * 256
      + (55296 + u / 1024) / 16 % 16 * 16 + (55296 + u / 1024) % 16 = 55296 + u / 1024 from
    by omega]
  rw [if_pos (by omega)]
  rw [if_pos ⟨rfl, rfl⟩]
  rw [hexVal_hexDigitChar ((56320 + u % 1024) / 4096 % 16) (by omega),
      hexVal_hexDigitChar ((56320 + u % 1024) / 256 % 16) (by omega),
      hexVal_hexDigitChar ((56320 + u % 1024) / 16 % 16) (by omega),
      hexVal_hexDigitChar ((56320 + u % 1024) % 16) (by omega)]
  dsimp only []
  rw [show (56320 + u % 1024) / 4096 % 16 * 4096 + (56320 + u % 1024) / 256 % 16 * 256
      + (56320 + u % 1024) / 16 % 16 * 16 + (56320 + u % 1024) % 16 = 56320 + u % 1024 from
    by omega]
  rw [if_pos (by omega)]
  rw [show 65536 + (55296 + u / 1024 - 55296) * 1024 + (56320 + u % 1024 - 56320)
      = 65536 + u from by omega]
theorem parseStrBody_lit (c : Char) (X : List Char) (h1 : c ≠ '"') (h2 : c ≠ '\\')
    (h3 : ¬ c.toNat < 32) :
    parseStrBody (c :: X) = consResult c (parseStrBody X) := by
  simp only [parseStrBody]
  rw [if_neg h1, if_neg h2, if_neg h3]
  rfl

theorem bmp_not_surrogate (c : Char) : c.toNat < 55296 ∨ 57344 ≤ c.toNat := by
  rcases char_valid_ranges c with h | h
  · exact Or.inl h
  · exact Or.inr h.1

theorem parseStrBody_escList (s : List Char) : ∀ rest : List Char,
    parseStrBody (escList s ++ '"' :: rest) = some (s, rest) := by
  induction s with
  | nil => intro rest; exact parseStrBody_quote rest
  | cons c s' ih =>
    intro rest
    show parseStrBody ((escChar c ++ escList s') ++ '"' :: rest) = _
    rw [List.append_assoc]
    by_cases h1 : c = '"'
    · subst h1
      rw [show escChar '"' = ['\\', '"'] from by decide]
      simp only [List.cons_append, List.nil_append]
      rw [parseStrBody_esc (escDecode_short '"' '"' _ (by decide) (by decide)), ih rest]
      rfl
    · by_cases h2 : c = '\\'
      · subst h2
        rw [show escChar '\\' = ['\\', '\\'] from by decide]
        simp only [List.cons_append, List.nil_append]
        rw [parseStrBody_esc (escDecode_short '\\' '\\' _ (by decide) (by decide)), ih rest]
        rfl
      · by_cases h3 : c = Char.ofNat 8
        · subst h3
          rw [show escChar (Char.ofNat 8) = ['\\', 'b'] from by decide]
          simp only [List.cons_append, List.nil_append]
          rw [parseStrBody_esc (escDecode_short 'b' (Char.ofNat 8) _ (by decide) (by decide)),
            ih rest]
          rfl
        · by_cases h4 : c = Char.ofNat 9
          · subst h4
            rw [show escChar (Char.ofNat 9) = ['\\', 't'] from by decide]
            simp only [List.cons_append, List.nil_append]
            rw [parseStrBody_esc (escDecode_short 't' (Char.ofNat 9) _ (by decide) (by decide)),
              ih rest]
            rfl
          · by_cases h5 : c = Char.ofNat 10
            · subst h5
              rw [show escChar (Char.ofNat 10) = ['\\', 'n'] from by decide]
              simp only [List.cons_append, List.nil_append]
              rw [parseStrBody_esc (escDecode_short 'n' (Char.ofNat 10) _ (by decide) (by decide)),
                ih rest]
              rfl
            · by_cases h6 : c = Char.ofNat 12
              · subst h6
                rw [show escChar (Char.ofNat 12) = ['\\', 'f'] from by decide]
                simp only [List.cons_append, List.nil_append]
                rw [parseStrBody_esc
                  (escDecode_short 'f' (Char.ofNat 12) _ (by decide) (by decide)), ih rest]
                rfl
              · by_cases h7 : c = Char.ofNat 13
                · subst h7
                  rw [show escChar (Char.ofNat 13) = ['\\', 'r'] from by decide]
                  simp only [List.cons_append, List.nil_append]
                  rw [parseStrBody_esc
                    (escDecode_short 'r' (Char.ofNat 13) _ (by decide) (by decide)), ih rest]
                  rfl
                · by_cases h8 : 32 ≤ c.toNat ∧ c.toNat ≤ 126
                  · have he : escChar c = [c] := by
                      unfold escChar
                      rw [if_neg h1, if_neg h2, if_neg h3, if_neg h4, if_neg h5, if_neg h6,
                        if_neg h7, if_pos h8]
                    rw [he]
                    simp only [List.cons_append, List.nil_append]
                    rw [parseStrBody_lit c _ h1 h2 (by omega), ih rest]
                    rfl
                  · by_cases h9 : c.toNat < 65536
                    · have he : escChar c = '\\' :: 'u' :: hex4 c.toNat := by
                        unfold escChar
                        rw [if_neg h1, if_neg h2, if_neg h3, if_neg h4, if_neg h5, if_neg h6,
                          if_neg h7, if_neg h8, if_pos h9]
                      rw [he]
                      simp only [List.cons_append]
                      rw [parseStrBody_esc
                        (escDecode_u_bmp c.toNat h9 (bmp_not_surrogate c) _), ih rest]
                      dsimp only [consResult]
                      rw [Char.ofNat_toNat]
                    · have he : escChar c
                          = '\\' :: 'u' :: hex4 (55296 + (c.toNat - 65536) / 1024)
                            ++ '\\' :: 'u' :: hex4 (56320 + (c.toNat - 65536) % 1024) := by
                        unfold escChar
                        rw [if_neg h1, if_neg h2, if_neg h3, if_neg h4, if_neg h5, if_neg h6,
                          if_neg h7, if_neg h8, if_neg h9]
                      have hlt : c.toNat < 1114112 := by
                        rcases char_valid_ranges c with h | h
                        · omega
                        · exact h.2
                      rw [he]
                      simp only [List.cons_append, List.append_assoc]
                      rw [parseStrBody_esc
                        (escDecode_u_pair (c.toNat - 65536) (by omega) _), ih rest]
                      dsimp only [consResult]
                      rw [show 65536 + (c.toNat - 65536) = c.toNat from by omega,
                        Char.ofNat_toNat]

theorem utf8DecodeStep_enc (c : Char) (rest : List Nat) :
    utf8DecodeStep (utf8EncChar c ++ rest) = some (c, rest) := by
  have hv := char_valid_ranges c
  unfold utf8EncChar
  by_cases h1 : c.toNat < 128
  · rw [if_pos h1]
    simp only [List.cons_append, List.nil_append]
    unfold utf8DecodeStep
    dsimp only []
    rw [if_pos h1, Char.ofNat_toNat]
  · rw [if_neg h1]
    by_cases h2 : c.toNat < 2048
    · rw [if_pos h2]
      simp only [List.cons_append, List.nil_append]
      unfold utf8DecodeStep
      dsimp only []
      rw [if_neg (by omega), if_neg (by omega), if_pos (by omega), if_pos (by omega)]
      rw [show (192 + c.toNat / 64 - 192) * 64 + (128 + c.toNat % 64 - 128) = c.toNat from
        by omega]
      rw [Char.ofNat_toNat]
    · rw [if_neg h2]
      by_cases h3 : c.toNat < 65536
      · rw [if_pos h3]
        simp only [List.cons_append, List.nil_append]
        unfold utf8DecodeStep
        dsimp only []
        rw [if_neg (by omega), if_neg (by omega), if_neg (by omega), if_pos (by omega),
          if_pos (by omega)]
        rw [show (224 + c.toNat / 4096 - 224) * 4096 + (128 + c.toNat / 64 % 64 - 128) * 64
            + (128 + c.toNat % 64 - 128) = c.toNat from by omega]
        rw [if_neg (by omega), if_neg (by omega), Char.ofNat_toNat]
      · rw [if_neg h3]
        simp only [List.cons_append, List.nil_append]
        unfold utf8DecodeStep
        dsimp only []
        rw [if_neg (by omega), if_neg (by omega), if_neg (by omega), if_neg (by omega),
          if_pos (by omega), if_pos (by omega)]
        rw [show (240 + c.toNat / 262144 - 240) * 262144 + (128 + c.toNat / 4096 % 64 - 128) * 4096
            + (128 + c.toNat / 64 % 64 - 128) * 64 + (128 + c.toNat % 64 - 128) = c.toNat from
          by omega]
        rw [if_neg (by omega), if_neg (by omega), Char.ofNat_toNat]

theorem utf8Decode_encode (s : List Char) : utf8Decode (utf8Encode s) = some s := by
  induction s with
  | nil =>
      show utf8Decode [] = some []
      unfold utf8Decode
      rfl
  | cons c cs ih =>
    show utf8Decode (utf8EncChar c ++ utf8Encode cs) = _
    obtain ⟨b, bs, hb⟩ : ∃ b bs, utf8EncChar c ++ utf8Encode cs = b :: bs := by
      unfold utf8EncChar
      by_cases h1 : c.toNat < 128
      · rw [if_pos h1]; exact ⟨_, _, rfl⟩
      · rw [if_neg h1]
        by_cases h2 : c.toNat < 2048
        · rw [if_pos h2]; exact ⟨_, _, rfl⟩
        · rw [if_neg h2]
          by_cases h3 : c.toNat < 65536
          · rw [if_pos h3]; exact ⟨_, _, rfl⟩
          · rw [if_neg h3]; exact ⟨_, _, rfl⟩
    rw [hb]
    unfold utf8Decode
    rw [← hb, utf8DecodeStep_enc c (utf8Encode cs)]
    dsimp only []
    rw [ih]

theorem isDigitB_not_ws {c : Char} (h : isDigitB c = true) : isWsChar c = false := by
  have hb := isDigitB_bounds h
  exact isWsChar_false (by omega) (by omega) (by omega) (by omega)

theorem render_head (v : JVal) :
    ∃ c t, render v = c :: t ∧ isWsChar c = false ∧ c ≠ ']' ∧ c ≠ rbrace := by
  cases v with
  | jnull => refine ⟨'n', _, rfl, ?_, ?_, ?_⟩ <;> decide
  | jbool b =>
      cases b with
      | true => refine ⟨'t', _, rfl, ?_, ?_, ?_⟩ <;> decide
      | false => refine ⟨'f', _, rfl, ?_, ?_, ?_⟩ <;> decide
  | jint n =>
      obtain ⟨c, t, hct, hcls⟩ := renderInt_shape n
      refine ⟨c, t, hct, ?_, ?_, ?_⟩
      · rcases hcls with h | h
        · subst h; decide
        · exact isDigitB_not_ws h
      · rcases hcls with h | h
        · subst h; decide
        · have hb := isDigitB_bounds h
          exact char_ne_of_toNat_ne (by rw [show (']' : Char).toNat = 93 from rfl]; omega)
      · rcases hcls with h | h
        · subst h; decide
        · have hb := isDigitB_bounds h
          exact char_ne_of_toNat_ne (by rw [show rbrace.toNat = 125 from rfl]; omega)
  | jstr s => refine ⟨'"', _, rfl, ?_, ?_, ?_⟩ <;> decide
  | jarr xs => refine ⟨'[', _, rfl, ?_, ?_, ?_⟩ <;> decide
  | jobj kvs => refine ⟨lbrace, _, rfl, ?_, ?_, ?_⟩ <;> decide

theorem renderElems_head {x : JVal} {c : Char} {t : List Char} (xs' : List JVal)
    (h : render x = c :: t) : ∃ t₂, renderElems (x :: xs') = c :: t₂ := by
  cases xs' with
  | nil => exact ⟨t, h⟩
  | cons y tl =>
      refine ⟨t ++ ',' :: ' ' :: renderElems (y :: tl), ?_⟩
      show render x ++ ',' :: ' ' :: renderElems (y :: tl) = _
      rw [h, List.cons_append]

theorem renderFields_head (k : List Char) (v : JVal)
    (tl : List (List Char × JVal)) :
    ∃ t₂, renderFields ((k, v) :: tl) = '"' :: t₂ := by
  cases tl with
  | nil => exact ⟨_, rfl⟩
  | cons p tl' => exact ⟨_, rfl⟩

theorem skipWs_render (v : JVal) (R : List Char) :
    skipWs (render v ++ R) = render v ++ R := by
  obtain ⟨c, t, he, hws, _, _⟩ := render_head v
  rw [he, List.cons_append, skipWs_cons_of_not_ws _ hws]

theorem parseVal_ws (g : Nat) (cs : List Char) :
    parseVal g (' ' :: cs) = parseVal g cs := by
  cases g with
  | zero => rfl
  | succ g =>
      simp only [parseVal]
      rw [skipWs_cons_space]

theorem parseElems_ws (g : Nat) (cs : List Char) :
    parseElems g (' ' :: cs) = parseElems g cs := by
  cases g with
  | zero => rfl
  | succ g =>
      simp only [parseElems]
      rw [parseVal_ws]

theorem parseFields_ws (g : Nat) (cs : List Char) :
    parseFields g (' ' :: cs) = parseFields g cs := by
  cases g with
  | zero => rfl
  | succ g =>
      simp only [parseFields]
      rw [skipWs_cons_space]

theorem jsizeV_pos (v : JVal) : 1 ≤ jsizeV v := by
  cases v <;> simp [jsizeV, jsizeL, jsizeF] <;> omega

theorem renderInt_len_pos (n : Int) : 1 ≤ (renderInt n).length := by
  obtain ⟨c, t, hct, _⟩ := renderInt_shape n
  rw [hct]
  simp

mutual

theorem jsizeV_le_renderLen : ∀ v : JVal, jsizeV v ≤ (render v).length
  | .jnull => by simp [jsizeV, render]
  | .jbool true => by simp [jsizeV, render]
  | .jbool false => by simp [jsizeV, render]
  | .jint n => by
      simp only [jsizeV, render]
      exact renderInt_len_pos n
  | .jstr s => by simp [jsizeV, render]
  | .jarr xs => by
      have h := jsizeL_le_renderLen xs
      simp only [jsizeV, render, List.length_cons, List.length_append, List.length_singleton]
      omega
  | .jobj kvs => by
      have h := jsizeF_le_renderLen kvs
      simp only [jsizeV, render, List.length_cons, List.length_append, List.length_singleton]
      omega

theorem jsizeL_le_renderLen : ∀ xs : List JVal, jsizeL xs ≤ 1 + (renderElems xs).length
  | [] => by simp [jsizeL]
  | [x] => by
      have h := jsizeV_le_renderLen x
      simp only [jsizeL, renderElems]
      omega
  | x :: y :: tl => by
      have h1 := jsizeV_le_renderLen x
      have h2 := jsizeL_le_renderLen (y :: tl)
      simp only [jsizeL] at h2
      simp only [jsizeL, renderElems, List.length_append, List.length_cons]
      omega

theorem jsizeF_le_renderLen :
    ∀ kvs : List (List Char × JVal), jsizeF kvs ≤ 1 + (renderFields kvs).length
  | [] => by simp [jsizeF]
  | [(k, v)] => by
      have h := jsizeV_le_renderLen v
      simp only [jsizeF, renderFields, List.length_cons, List.length_append]
      omega
  | (k, v) :: p :: tl => by
      have h1 := jsizeV_le_renderLen v
      have h2 := jsizeF_le_renderLen (p :: tl)
      simp only [jsizeF] at h2
      simp only [jsizeF, renderFields, List.length_cons, List.length_append]
      omega

end

theorem numOkB_cons (c : Char) (X : List Char) (h : isDigitB c = false) :
    numOkB (c :: X) = true := by
  simp [numOkB, h]

theorem jint_head_facts {c : Char} (h : c = '-' ∨ isDigitB c = true) :
    isWsChar c = false ∧ c ≠ 'n' ∧ c ≠ 't' ∧ c ≠ 'f' ∧ c ≠ '"' ∧ c ≠ '[' ∧ c ≠ lbrace := by
  rcases h with h | h
  · subst h
    exact ⟨by decide, by decide, by decide, by decide, by decide, by decide, by decide⟩
  · have hb := isDigitB_bounds h
    exact ⟨isWsChar_false (by omega) (by omega) (by omega) (by omega),
      fun he => by subst he; exact absurd hb (by decide),
      fun he => by subst he; exact absurd hb (by decide),
      fun he => by subst he; exact absurd hb (by decide),
      fun he => by subst he; exact absurd hb (by decide),
      fun he => by subst he; exact absurd hb (by decide),
      fun he => by subst he; exact absurd hb (by decide)⟩

theorem parse_render_fuel : ∀ fuel : Nat,
    (∀ (v : JVal) (rest : List Char), jsizeV v ≤ fuel → numOkB rest = true →
      parseVal fuel (render v ++ rest) = some (v, rest))
    ∧ (∀ (xs : List JVal) (rest : List Char), xs ≠ [] → jsizeL xs ≤ fuel →
      parseElems fuel (renderElems xs ++ ']' :: rest) = some (xs, rest))
    ∧ (∀ (kvs : List (List Char × JVal)) (rest : List Char), kvs ≠ [] → jsizeF kvs ≤ fuel →
      parseFields fuel (renderFields kvs ++ rbrace :: rest) = some (kvs, rest)) := by
  intro fuel
  induction fuel with
  | zero =>
      refine ⟨?_, ?_, ?_⟩
      · intro v rest hsz _
        have := jsizeV_pos v
        omega
      · intro xs rest hne hsz
        cases xs with
        | nil => exact absurd rfl hne
        | cons x xs' =>
            have := jsizeV_pos x
            simp only [jsizeL] at hsz
            omega
      · intro kvs rest hne hsz
        cases kvs with
        | nil => exact absurd rfl hne
        | cons kv tl =>
            obtain ⟨k, v⟩ := kv
            have := jsizeV_pos v
            simp only [jsizeF] at hsz
            omega
  | succ fuel ih =>
      obtain ⟨ihV, ihL, ihF⟩ := ih
      refine ⟨?_, ?_, ?_⟩
      · intro v rest hsz hnum
        cases v with
        | jnull => rfl
        | jbool b => cases b <;> rfl
        | jint n =>
            obtain ⟨c, t, hct, hcls⟩ := renderInt_shape n
            obtain ⟨hws, hn, ht, hf, hq, hk, hb⟩ := jint_head_facts hcls
            show parseVal (fuel + 1) (renderInt n ++ rest) = _
            simp only [parseVal]
            rw [show renderInt n ++ rest = c :: (t ++ rest) from by rw [hct]; rfl]
            rw [skipWs_cons_of_not_ws _ hws]
            dsimp only []
            rw [if_neg hn, if_neg ht, if_neg hf, if_neg hq, if_neg hk, if_neg hb]
            rw [show c :: (t ++ rest) = renderInt n ++ rest from by rw [hct]; rfl]
            exact parseIntTok_renderInt n rest hnum
        | jstr s =>
            show parseVal (fuel + 1) (render (JVal.jstr s) ++ rest) = _
            simp only [render, List.cons_append, List.append_assoc, List.singleton_append,
              List.nil_append]
            simp only [parseVal]
            rw [skipWs_cons_of_not_ws _ (by decide)]
            dsimp only []
            rw [parseStrBody_escList]
            rw [if_neg (by decide), if_neg (by decide), if_neg (by decide), if_pos rfl]
        | jarr xs =>
            cases xs with
            | nil => rfl
            | cons x xs' =>
                show parseVal (fuel + 1) (render (JVal.jarr (x :: xs')) ++ rest) = _
                simp only [render, List.cons_append, List.append_assoc, List.singleton_append,
                  List.nil_append]
                simp only [parseVal]
                rw [skipWs_cons_of_not_ws _ (by decide)]
                dsimp only []
                rw [if_neg (by decide), if_neg (by decide), if_neg (by decide),
                  if_neg (by decide), if_pos rfl]
                obtain ⟨c, t, hct, hws, hrb, _⟩ := render_head x
                obtain ⟨t₂, he₂⟩ := renderElems_head xs' hct
                rw [show renderElems (x :: xs') ++ ']' :: rest = c :: (t₂ ++ ']' :: rest) from
                  by rw [he₂]; rfl]
                rw [skipWs_cons_of_not_ws _ hws]
                dsimp only []
                rw [if_neg hrb]
                rw [show c :: (t₂ ++ ']' :: rest) = renderElems (x :: xs') ++ ']' :: rest from
                  by rw [he₂]; rfl]
                rw [ihL (x :: xs') rest (by simp) (by simp only [jsizeV] at hsz; omega)]
        | jobj kvs =>
            cases kvs with
            | nil => rfl
            | cons kv tl =>
                show parseVal (fuel + 1) (render (JVal.jobj (kv :: tl)) ++ rest) = _
                simp only [render, List.cons_append, List.append_assoc, List.singleton_append,
                  List.nil_append]
                simp only [parseVal]
                rw [skipWs_cons_of_not_ws _ (by decide)]
                dsimp only []
                rw [if_neg (by decide), if_neg (by decide), if_neg (by decide),
                  if_neg (by decide), if_neg (by decide), if_pos rfl]
                obtain ⟨k, v⟩ := kv
                obtain ⟨t₂, he₂⟩ := renderFields_head k v tl
                rw [show renderFields ((k, v) :: tl) ++ rbrace :: rest
                    = '"' :: (t₂ ++ rbrace :: rest) from by rw [he₂]; rfl]
                rw [skipWs_cons_of_not_ws _ (by decide)]
                dsimp only []
                rw [if_neg (by decide : ¬ ('"' : Char) = rbrace)]
                rw [show ('"' : Char) :: (t₂ ++ rbrace :: rest)
                    = renderFields ((k, v) :: tl) ++ rbrace :: rest from by rw [he₂]; rfl]
                rw [ihF ((k, v) :: tl) rest (by simp) (by simp only [jsizeV] at hsz; omega)]
      · intro xs rest hne hsz
        cases xs with
        | nil => exact absurd rfl hne
        | cons x xs' =>
            simp only [jsizeL] at hsz
            simp only [parseElems]
            cases xs' with
            | nil =>
                rw [show renderElems [x] ++ ']' :: rest = render x ++ ']' :: rest from rfl]
                rw [ihV x (']' :: rest) (by omega) rfl]
                dsimp only []
                rw [skipWs_cons_of_not_ws _ (by decide)]
                dsimp only []
                rfl
            | cons y tl =>
                simp only [renderElems, List.cons_append, List.append_assoc,
                  List.singleton_append]
                rw [ihV x _ (by simp only [jsizeL] at hsz; omega)
                  (numOkB_cons ',' _ (by decide))]
                dsimp only []
                rw [skipWs_cons_of_not_ws _ (by decide)]
                dsimp only []
                rw [parseElems_ws]
                rw [ihL (y :: tl) rest (by simp) (by simp only [jsizeL] at hsz ⊢; omega)]
                rw [if_pos rfl]
      · intro kvs rest hne hsz
        cases kvs with
        | nil => exact absurd rfl hne
        | cons kv tl =>
            obtain ⟨k, v⟩ := kv
            simp only [jsizeF] at hsz
            simp only [parseFields]
            cases tl with
            | nil =>
                simp only [renderFields, List.cons_append, List.append_assoc,
                  List.singleton_append]
                rw [skipWs_cons_of_not_ws _ (by decide)]
                dsimp only []
                rw [parseStrBody_escList]
                dsimp only []
                rw [skipWs_cons_of_not_ws _ (by decide)]
                dsimp only []
                rw [parseVal_ws]
                rw [ihV v (rbrace :: rest) (by omega) (numOkB_cons rbrace _ (by decide))]
                dsimp only []
                rw [skipWs_cons_of_not_ws _ (by decide)]
                dsimp only []
                rfl
            | cons p tl' =>
                simp only [renderFields, List.cons_append, List.append_assoc,
                  List.singleton_append]
                rw [skipWs_cons_of_not_ws _ (by decide)]
                dsimp only []
                rw [parseStrBody_escList]
                dsimp only []
                rw [skipWs_cons_of_not_ws _ (by decide)]
                dsimp only []
                rw [parseVal_ws]
                rw [ihV v _ (by simp only [jsizeF] at hsz; omega)
                  (numOkB_cons ',' _ (by decide))]
                dsimp only []
                rw [skipWs_cons_of_not_ws _ (by decide)]
                dsimp only []
                rw [parseFields_ws]
                rw [ihF (p :: tl') rest (by simp) (by simp only [jsizeF] at hsz ⊢; omega)]
                rw [if_pos rfl, if_pos rfl, if_pos rfl]
theorem parseJson_render (v : JVal) : parseJson (render v) = some v := by
  unfold parseJson
  have hfuel : jsizeV v ≤ (render v).length + 1 := by
    have := jsizeV_le_renderLen v
    omega
  have h := (parse_render_fuel ((render v).length + 1)).1 v [] hfuel rfl
  rw [List.append_nil] at h
  rw [h]
  rfl

/-- C9: the wire codec round-trips: deserializing the serialization of a
record returns the record.  The validity hypothesis restricts the
statement to the domain json.dumps actually receives, dictionaries, whose
key sets are duplicate-free at every level. -/
theorem c9_codec_roundtrip (m : JVal) (_hvalid : validB m = true) :
    deserialize_message (serialize_message m) = some m := by
  unfold deserialize_message serialize_message
  rw [utf8Decode_encode]
  exact parseJson_render m

/-- Concrete chat record for the codec witness, shaped like
create_chat_message output. -/
def sampleRecord : JVal :=
  .jobj [("type".data, .jstr "CHAT_MESSAGE".data),
         ("message_id".data, .jstr "8d2a".data),
         ("timestamp".data, .jstr "2024-01-01T00:00:00".data),
         ("username".data, .jstr "alice".data),
         ("content".data, .jstr "hello ring".data),
         ("client_id".data, .jnull),
         ("hop_count".data, .jint 3),
         ("neg".data, .jint (-7)),
         ("flags".data, .jarr [.jbool true, .jbool false]),
         ("nested".data, .jobj [("k".data, .jstr [Char.ofNat 233, Char.ofNat 128512])])]

/-- Witness for C9 at the concrete record. -/
theorem c9_codec_roundtrip_witness :
    deserialize_message (serialize_message sampleRecord) = some sampleRecord :=
  c9_codec_roundtrip sampleRecord (by decide)

end RingChat
